import Mathlib

/-!
Verification of the half-edge triangle mesh topology engine of Open3D 0.9.0
(`src/Open3D/Geometry/HalfEdgeTriangleMesh.h`).

The repository ships only the headers; the class declaration, the inline
members (`HalfEdge`'s default constructor, `IsBoundary`) and the doc comments
are in `HalfEdgeTriangleMesh.h`, while the bodies of `CreateFromTriangleMesh`,
`GetBoundaries`, `NextHalfEdgeFromVertex`, `NextHalfEdgeOnBoundary`,
`operator+` and `Clear` live in an implementation file that is not part of the
sources.  Those operations are therefore modelled from the specification
(sections 4.2, 4.4, 4.5, 4.6 of the spec), faithful to its words; the inline
header code is embedded directly.

Conventions of the embedding:
* C++ `int` indices become `Int`; the sentinel `-1` is kept as `-1`.
* `std::vector` becomes `List`; out-of-range reads return the
  default-constructed `HalfEdge` (all fields `-1`), which keeps every
  traversal total.  Well-formedness hypotheses guarantee that in-range
  behaviour is the one exercised.
* Vertex positions, normals and colors are `Eigen::Vector3d` values; the
  topology core never inspects them, so their coordinates are embedded as
  uninterpreted bit patterns (`Int` triples).
* Loops of unknown trip count (the fan walk, the boundary walks) are given
  explicit fuel; the well-formedness lemmas show the fuel suffices.
-/

namespace Open3D

/-- Bit pattern of an `Eigen::Vector3d`; the topology core carries these
through without inspecting them. -/
abbrev Vec3 : Type := Int × Int × Int

/-- Bit pattern of an `Eigen::Vector3i` triangle: three vertex indices. -/
abbrev Tri : Type := Int × Int × Int

/-- Embedding of `HalfEdgeTriangleMesh::HalfEdge`
(HalfEdgeTriangleMesh.h, lines 40-62): `next_`, `twin_`, the ordered vertex
pair `vertex_indices_`, and `triangle_index_`. -/
structure HalfEdge where
  next_ : Int
  twin_ : Int
  vertex_indices_ : Int × Int
  triangle_index_ : Int
deriving DecidableEq

/-- Embedding of the default constructor `HalfEdge()` (header lines 42-46):
every field is initialised to the sentinel `-1`. -/
def HalfEdge.init : HalfEdge :=
  ⟨-1, -1, (-1, -1), -1⟩

/-- Embedding of `HalfEdge::IsBoundary()` (header line 51):
`return twin_ == -1;`. -/
def HalfEdge.IsBoundary (e : HalfEdge) : Bool :=
  e.twin_ == -1

/-- Source vertex of a half-edge (first component of `vertex_indices_`). -/
def HalfEdge.src (e : HalfEdge) : Int := e.vertex_indices_.1

/-- Destination vertex of a half-edge (second component of
`vertex_indices_`). -/
def HalfEdge.dst (e : HalfEdge) : Int := e.vertex_indices_.2

/-- Read `half_edges_[i]` totally: a C++ `int` index that is out of range
yields the default-constructed `HalfEdge` (all fields `-1`). -/
def heAt (hes : List HalfEdge) (i : Int) : HalfEdge :=
  if 0 ≤ i then hes.getD i.toNat HalfEdge.init else HalfEdge.init

/-- An `Int` is a valid index into the half-edge array. -/
def validIdx (hes : List HalfEdge) (i : Int) : Prop :=
  0 ≤ i ∧ i.toNat < hes.length

instance (hes : List HalfEdge) (i : Int) : Decidable (validIdx hes i) := by
  unfold validIdx; infer_instance

/-- Embedding of the read interface of `TriangleMesh` that the builder
consumes (spec section 6): vertices with carried attributes, triangles,
optional triangle normals. -/
structure TriangleMesh where
  vertices_ : List Vec3
  vertex_normals_ : List Vec3
  vertex_colors_ : List Vec3
  triangles_ : List Tri
  triangle_normals_ : List Vec3
deriving DecidableEq

/-- Embedding of the data members of `HalfEdgeTriangleMesh`
(header lines 100-107) together with the carriers inherited from `MeshBase`
(MeshBase.h, lines 124-127). -/
structure HalfEdgeTriangleMesh where
  vertices_ : List Vec3
  vertex_normals_ : List Vec3
  vertex_colors_ : List Vec3
  triangles_ : List Tri
  triangle_normals_ : List Vec3
  half_edges_ : List HalfEdge
  ordered_half_edge_from_vertex_ : List (List Int)
deriving DecidableEq

/-- The default-constructed (empty) `HalfEdgeTriangleMesh`. -/
def HalfEdgeTriangleMesh.empty : HalfEdgeTriangleMesh :=
  ⟨[], [], [], [], [], [], []⟩

/-- Modelled from the spec: the error taxonomy of the builder (spec
section 7); the bodies that signal these are in the missing implementation
file. -/
inductive BuildError where
  | DegenerateTriangle
  | NonManifoldEdge
  | NonManifoldVertex
  | InvalidIndex
deriving DecidableEq

/-- Modelled from the spec: `HalfEdgeTriangleMesh::Clear()` (declared at
header line 68, body missing) returns the mesh to the empty state,
discarding all arrays (spec section 4.3). -/
def HalfEdgeTriangleMesh.Clear (_ : HalfEdgeTriangleMesh) : HalfEdgeTriangleMesh :=
  HalfEdgeTriangleMesh.empty

/-- Embedding of `HalfEdgeTriangleMesh::HasHalfEdges()` (declared at header
line 71: true if half-edges have been computed, i.e. the array is
non-empty, spec section 4.3). -/
def HalfEdgeTriangleMesh.HasHalfEdges (m : HalfEdgeTriangleMesh) : Bool :=
  !m.half_edges_.isEmpty

/-- The half-edge emitted at flat index `j` by step 1 of the build
algorithm (spec section 4.2): triangle `i = j / 3` with vertices
`(a, b, c)` contributes, at offsets `0, 1, 2`, the pairs
`(a,b), (b,c), (c,a)` with `next` fields `3i+1, 3i+2, 3i` and triangle
field `i`; twins are still unset (`-1`). -/
def heOfIndex (tris : List Tri) (j : Nat) : HalfEdge :=
  let t := tris.getD (j / 3) (-1, -1, -1)
  let i : Int := Int.ofNat (j / 3)
  match j % 3 with
  | 0 => ⟨Int.ofNat (3 * (j / 3) + 1), -1, (t.1, t.2.1), i⟩
  | 1 => ⟨Int.ofNat (3 * (j / 3) + 2), -1, (t.2.1, t.2.2), i⟩
  | _ => ⟨Int.ofNat (3 * (j / 3)), -1, (t.2.2, t.1), i⟩

/-- Modelled from the spec: step 1 of the builder (spec section 4.2)
allocates `3 M` half-edges, three per triangle in declared order. -/
def emitHalfEdges (tris : List Tri) : List HalfEdge :=
  (List.range (3 * tris.length)).map (heOfIndex tris)

/-- A triangle references only vertex indices inside `[0, N)`
(spec section 7, `InvalidIndex`). -/
def triValid (N : Nat) (t : Tri) : Bool :=
  0 ≤ t.1 && t.1 < Int.ofNat N && 0 ≤ t.2.1 && t.2.1 < Int.ofNat N &&
    0 ≤ t.2.2 && t.2.2 < Int.ofNat N

/-- A triangle references the same vertex more than once
(spec section 7, `DegenerateTriangle`). -/
def triDegenerate (t : Tri) : Bool :=
  t.1 == t.2.1 || t.2.1 == t.2.2 || t.2.2 == t.1

/-- Update the `twin_` field of a half-edge, leaving the rest unchanged. -/
def HalfEdge.setTwin (e : HalfEdge) (t : Int) : HalfEdge :=
  ⟨e.next_, t, e.vertex_indices_, e.triangle_index_⟩

/-- The twin index assigned to a half-edge with pair `(s, d)`: the index of
the half-edge with pair `(d, s)` when present, and the sentinel `-1` when
absent. -/
def twinIdx (hes : List HalfEdge) (e : HalfEdge) : Int :=
  match hes.findIdx? (fun e2 => e2.vertex_indices_ == (e.dst, e.src)) with
  | some j => Int.ofNat j
  | none => -1

/-- Modelled from the spec: step 3 of the builder (spec section 4.2), twin
pairing.  For each half-edge with pair `(s, d)` look up the half-edge with
pair `(d, s)`; if present, record its index as the twin; unpaired
half-edges remain boundary (their twin stays the emitted `-1`). -/
def pairTwins (hes : List HalfEdge) : List HalfEdge :=
  hes.map fun e => e.setTwin (twinIdx hes e)

/-- Embedding of `NextHalfEdgeFromVertex` (declared at header lines 94-97,
body missing; modelled from the spec, section 4.4): the next half-edge out
of the same source vertex in counter-clockwise order, obtained by
traversing to the next, next and twin half-edge; `-1` at a boundary. -/
def NextHalfEdgeFromVertex (hes : List HalfEdge) (i : Int) : Int :=
  (heAt hes (heAt hes (heAt hes i).next_).next_).twin_

/-- One rotation step of the boundary search: from an interior half-edge
pointing out of a vertex, step to `next(twin(e))`, the next half-edge out
of the same vertex in clockwise order. -/
def rotStep (hes : List HalfEdge) (e : Int) : Int :=
  (heAt hes (heAt hes e).twin_).next_

/-- Fuel-indexed kernel of `NextHalfEdgeOnBoundary`: return the current
half-edge as soon as it is boundary, otherwise keep rotating. -/
def nextOnBoundaryAux (hes : List HalfEdge) : Nat → Int → Int
  | 0, e => e
  | fuel + 1, e =>
    if (heAt hes e).IsBoundary then e else nextOnBoundaryAux hes fuel (rotStep hes e)

/-- Embedding of `NextHalfEdgeOnBoundary` (declared at header line 98, body
missing; modelled from the spec, section 4.4): starting from `next(h)`,
repeatedly apply twin-then-next until a boundary half-edge is reached. -/
def NextHalfEdgeOnBoundary (hes : List HalfEdge) (h : Int) : Int :=
  nextOnBoundaryAux hes hes.length (heAt hes h).next_

/-- The outgoing half-edges of vertex `v`, in emission (index) order: the
bucket pass of step 4 of the builder (spec section 4.2). -/
def outgoing (hes : List HalfEdge) (v : Nat) : List Int :=
  ((List.range hes.length).map Int.ofNat).filter
    (fun j => (heAt hes j).src == Int.ofNat v)

/-- Fuel-indexed counter-clockwise fan walk (step 4 of the builder, spec
section 4.2): append the current half-edge, stop when the successor is
absent (`-1`, boundary fan) or equals the start (closed fan). -/
def fanWalkAux (hes : List HalfEdge) (start : Int) : Nat → Int → List Int
  | 0, _ => []
  | fuel + 1, cur =>
    cur ::
      (let nxt := NextHalfEdgeFromVertex hes cur
       if nxt == -1 || nxt == start then []
       else fanWalkAux hes start fuel nxt)

/-- Modelled from the spec: the ordered outgoing list of one vertex
(step 4 of the builder, spec section 4.2).  Gather the outgoing
half-edges, start at a boundary one when there is one (otherwise the first
gathered), and walk counter-clockwise with `NextHalfEdgeFromVertex`. -/
def ooeOfVertex (hes : List HalfEdge) (v : Nat) : List Int :=
  match outgoing hes v with
  | [] => []
  | g =>
    let start :=
      match g.find? (fun j => (heAt hes j).IsBoundary) with
      | some b => b
      | none => g.headD (-1)
    fanWalkAux hes start (g.length + 1) start

/-- Modelled from the spec: `CreateFromTriangleMesh` (declared at header
lines 88-89, body missing; spec section 4.2).  Validate indices
(`InvalidIndex`) and non-degeneracy (`DegenerateTriangle`), emit the
half-edges, reject duplicated oriented pairs (`NonManifoldEdge`), pair
twins, and build the per-vertex counter-clockwise ordered outgoing lists,
rejecting vertices whose fan walk does not cover all gathered half-edges
(`NonManifoldVertex`).  All-or-nothing: on failure only the error value is
returned. -/
def CreateFromTriangleMesh (mesh : TriangleMesh) :
    Except BuildError HalfEdgeTriangleMesh :=
  let N := mesh.vertices_.length
  let tris := mesh.triangles_
  if ¬ (tris.all (triValid N)) then .error .InvalidIndex
  else if tris.any triDegenerate then .error .DegenerateTriangle
  else
    let hes0 := emitHalfEdges tris
    if h : (hes0.map (fun e => e.vertex_indices_)).Nodup then
      let hes := pairTwins hes0
      if hvm : ∀ v < N, (ooeOfVertex hes v).length = (outgoing hes v).length then
        .ok ⟨mesh.vertices_, mesh.vertex_normals_, mesh.vertex_colors_,
             tris, mesh.triangle_normals_, hes,
             (List.range N).map (ooeOfVertex hes)⟩
      else .error .NonManifoldVertex
    else .error .NonManifoldEdge

/-- Fuel-indexed boundary-loop walk: collect the current boundary half-edge
and keep following `NextHalfEdgeOnBoundary` until the start is reached
again (spec section 4.5). -/
def boundaryLoopAux (hes : List HalfEdge) (start : Int) : Nat → Int → List Int
  | 0, _ => []
  | fuel + 1, cur =>
    cur ::
      (let nxt := NextHalfEdgeOnBoundary hes cur
       if nxt == start then [] else boundaryLoopAux hes start fuel nxt)

/-- The boundary loop through `start`: walk `NextHalfEdgeOnBoundary` until
returning to the starting half-edge, collecting each step
(spec section 4.5). -/
def boundaryLoop (hes : List HalfEdge) (start : Int) : List Int :=
  boundaryLoopAux hes start hes.length start

/-- Modelled from the spec: `BoundaryHalfEdgesFromVertex` (declared at
header lines 73-75, body missing; spec section 4.5).  Consult `OOE[v][0]`;
if absent or not boundary return the empty list, otherwise walk the
boundary loop. -/
def BoundaryHalfEdgesFromVertex (m : HalfEdgeTriangleMesh) (v : Int) :
    List Int :=
  match (if 0 ≤ v then m.ordered_half_edge_from_vertex_.getD v.toNat [] else []) with
  | [] => []
  | h0 :: _ =>
    if (heAt m.half_edges_ h0).IsBoundary then boundaryLoop m.half_edges_ h0
    else []

/-- Modelled from the spec: `BoundaryVerticesFromVertex` (declared at
header lines 77-79, body missing; spec section 4.5): the same walk,
recording the source vertex of each collected half-edge. -/
def BoundaryVerticesFromVertex (m : HalfEdgeTriangleMesh) (v : Int) :
    List Int :=
  (BoundaryHalfEdgesFromVertex m v).map (fun h => (heAt m.half_edges_ h).src)

/-- One step of the `GetBoundaries` scan (spec section 4.5): at vertex `v`,
if `OOE[v]` is non-empty, its first half-edge is boundary and not yet
visited, launch a boundary walk, mark the loop as visited and emit it.
The state is `(visited, loops)`. -/
def gbStep (m : HalfEdgeTriangleMesh) (acc : List Int × List (List Int))
    (v : Nat) : List Int × List (List Int) :=
  match m.ordered_half_edge_from_vertex_.getD v [] with
  | [] => acc
  | h0 :: _ =>
    if (heAt m.half_edges_ h0).IsBoundary && !(acc.1.contains h0) then
      let L := boundaryLoop m.half_edges_ h0
      (acc.1 ++ L, acc.2 ++ [L])
    else acc

/-- Modelled from the spec: the boundary loops visited by `GetBoundaries`
(spec section 4.5), as lists of half-edge indices: scan the vertices in
ascending order, launching one boundary walk per unvisited boundary loop. -/
def GetBoundaryLoops (m : HalfEdgeTriangleMesh) : List (List Int) :=
  ((List.range m.vertices_.length).foldl (gbStep m) ([], [])).2

/-- Modelled from the spec: `GetBoundaries` (declared at header lines
81-82, body missing; spec section 4.5): each boundary loop as the list of
the source vertices of its half-edges. -/
def GetBoundaries (m : HalfEdgeTriangleMesh) : List (List Int) :=
  (GetBoundaryLoops m).map (fun L => L.map (fun h => (heAt m.half_edges_ h).src))

/-- Shift all three vertex indices of a triangle by `k` (index rebasing of
the composition operator, spec section 4.6). -/
def rebase (k : Int) (t : Tri) : Tri :=
  (t.1 + k, t.2.1 + k, t.2.2 + k)

/-- Modelled from the spec: steps 1-2 of the composition operator
`operator+` (declared at header line 86, body missing; spec section 4.6):
concatenate the vertex arrays and carried attributes, concatenate the
triangle arrays with `B`'s vertex indices shifted by `k = |A.vertices|`,
concatenate the triangle normals. -/
def combineSource (A B : HalfEdgeTriangleMesh) : TriangleMesh :=
  let k : Int := Int.ofNat A.vertices_.length
  ⟨A.vertices_ ++ B.vertices_,
   A.vertex_normals_ ++ B.vertex_normals_,
   A.vertex_colors_ ++ B.vertex_colors_,
   A.triangles_ ++ B.triangles_.map (rebase k),
   A.triangle_normals_ ++ B.triangle_normals_⟩

/-- Modelled from the spec: the composition operator `operator+`
(spec section 4.6), step 3: discard the half-edge structure of the
concatenated data and rebuild via the builder, failing with the same error
taxonomy as construction. -/
def hetAdd (A B : HalfEdgeTriangleMesh) : Except BuildError HalfEdgeTriangleMesh :=
  CreateFromTriangleMesh (combineSource A B)

/-! ## Well-formedness of a half-edge array

The invariants of spec section 3 (items 1-3), phrased over the embedded
arrays with bounded quantifiers so that they are decidable on concrete
stores. -/

/-- The invariants a half-edge array satisfies after a successful build
(spec section 3): `next` fields are valid and encode triangle order
(`dst h = src (next h)`, `next (next (next h)) = h`), and twinning is
symmetric with reversed vertex pairs. -/
structure WF (hes : List HalfEdge) : Prop where
  next_valid : ∀ j : Nat, j < hes.length →
    validIdx hes (heAt hes (Int.ofNat j)).next_
  src_next : ∀ j : Nat, j < hes.length →
    (heAt hes (heAt hes (Int.ofNat j)).next_).src = (heAt hes (Int.ofNat j)).dst
  next3 : ∀ j : Nat, j < hes.length →
    (heAt hes (heAt hes (heAt hes (Int.ofNat j)).next_).next_).next_ = Int.ofNat j
  twin_valid : ∀ j : Nat, j < hes.length →
    (heAt hes (Int.ofNat j)).twin_ = -1 ∨ validIdx hes (heAt hes (Int.ofNat j)).twin_
  twin_sym : ∀ j : Nat, j < hes.length → (heAt hes (Int.ofNat j)).twin_ ≠ -1 →
    (heAt hes (heAt hes (Int.ofNat j)).twin_).twin_ = Int.ofNat j
  twin_pair : ∀ j : Nat, j < hes.length → (heAt hes (Int.ofNat j)).twin_ ≠ -1 →
    (heAt hes (heAt hes (Int.ofNat j)).twin_).vertex_indices_ =
      ((heAt hes (Int.ofNat j)).dst, (heAt hes (Int.ofNat j)).src)

/-! ## Basic indexing lemmas -/

theorem heAt_ofNat (hes : List HalfEdge) (j : Nat) :
    heAt hes (Int.ofNat j) = hes.getD j HalfEdge.init := by
  simp [heAt]

theorem heAt_neg_one (hes : List HalfEdge) : heAt hes (-1) = HalfEdge.init := by
  simp [heAt]

theorem heAt_of_valid (hes : List HalfEdge) (i : Int) (h : validIdx hes i) :
    heAt hes i = hes.getD i.toNat HalfEdge.init := by
  unfold heAt
  rw [if_pos h.1]

theorem validIdx_ofNat (hes : List HalfEdge) (j : Nat) (h : j < hes.length) :
    validIdx hes (Int.ofNat j) := by
  exact ⟨Int.ofNat_nonneg j, by simpa using h⟩

theorem ofNat_toNat_of_valid (hes : List HalfEdge) (i : Int) (h : validIdx hes i) :
    Int.ofNat i.toNat = i := by
  exact Int.toNat_of_nonneg h.1

theorem emitHalfEdges_length (tris : List Tri) :
    (emitHalfEdges tris).length = 3 * tris.length := by
  simp [emitHalfEdges]

theorem emitHalfEdges_get (tris : List Tri) (j : Nat) (hj : j < 3 * tris.length) :
    heAt (emitHalfEdges tris) (Int.ofNat j) = heOfIndex tris j := by
  rw [heAt_ofNat]
  unfold emitHalfEdges
  rw [List.getD_eq_getElem?_getD, List.getElem?_map, List.getElem?_range hj]
  rfl

theorem pairTwins_length (hes : List HalfEdge) :
    (pairTwins hes).length = hes.length := by
  simp [pairTwins]

theorem pairTwins_get (hes : List HalfEdge) (j : Nat) (hj : j < hes.length) :
    heAt (pairTwins hes) (Int.ofNat j) =
      (hes.getD j HalfEdge.init).setTwin (twinIdx hes (hes.getD j HalfEdge.init)) := by
  rw [heAt_ofNat]
  unfold pairTwins
  rw [List.getD_eq_getElem?_getD, List.getElem?_map]
  rw [List.getElem?_eq_getElem hj]
  simp [List.getD_eq_getElem?_getD, List.getElem?_eq_getElem hj]

theorem emitHalfEdges_twin (tris : List Tri) (j : Nat) (hj : j < 3 * tris.length) :
    (heAt (emitHalfEdges tris) (Int.ofNat j)).twin_ = -1 := by
  rw [emitHalfEdges_get tris j hj]
  unfold heOfIndex
  have h3 : j % 3 = 0 ∨ j % 3 = 1 ∨ j % 3 = 2 := by omega
  rcases h3 with h | h | h <;> simp [h]

/-! ## Inversion of a successful build -/

/-- The half-edge array built from a triangle list: emission followed by
twin pairing. -/
def builtOf (tris : List Tri) : List HalfEdge :=
  pairTwins (emitHalfEdges tris)

/-- The half-edge array a successful build of `mesh` produces. -/
def builtHes (mesh : TriangleMesh) : List HalfEdge :=
  builtOf mesh.triangles_

theorem build_ok (mesh : TriangleMesh) (m : HalfEdgeTriangleMesh)
    (h : CreateFromTriangleMesh mesh = .ok m) :
    mesh.triangles_.all (triValid mesh.vertices_.length) = true ∧
    mesh.triangles_.any triDegenerate = false ∧
    ((emitHalfEdges mesh.triangles_).map (fun e => e.vertex_indices_)).Nodup ∧
    (∀ v < mesh.vertices_.length,
      (ooeOfVertex (builtHes mesh) v).length = (outgoing (builtHes mesh) v).length) ∧
    m = ⟨mesh.vertices_, mesh.vertex_normals_, mesh.vertex_colors_,
         mesh.triangles_, mesh.triangle_normals_, builtHes mesh,
         (List.range mesh.vertices_.length).map (ooeOfVertex (builtHes mesh))⟩ := by
  unfold CreateFromTriangleMesh at h
  simp only at h
  unfold builtHes builtOf
  split at h
  · exact absurd h (by simp)
  · split at h
    · exact absurd h (by simp)
    · split at h
      · split at h
        · rename_i hval hdeg hnodup hooe
          refine ⟨by simpa using hval, by simpa using hdeg, hnodup, hooe, ?_⟩
          exact (Except.ok.inj h).symm
        · exact absurd h (by simp)
      · exact absurd h (by simp)

/-! ## Claim theorems: emission, errors, composition, determinism -/

/-- C10: a default-constructed `HalfEdge` has every field set to the absent
sentinel (`next_ = -1`, `twin_ = -1`, `vertex_indices_ = (-1, -1)`,
`triangle_index_ = -1`), and consequently `IsBoundary()` returns true on
it. -/
theorem default_half_edge_is_sentinel :
    HalfEdge.init.next_ = -1 ∧ HalfEdge.init.twin_ = -1 ∧
    HalfEdge.init.vertex_indices_ = (-1, -1) ∧
    HalfEdge.init.triangle_index_ = -1 ∧
    HalfEdge.init.IsBoundary = true := by
  decide

/-- C1: a successful build of a triangle list of length `M` produces
exactly `3 M` half-edges, and for triangle `i` with vertices `(a, b, c)`
the half-edges at indices `3i, 3i+1, 3i+2` carry the vertex pairs
`(a,b), (b,c), (c,a)`, triangle field `i`, and `next` fields
`3i+1, 3i+2, 3i` respectively. -/
theorem build_emits_three_half_edges_per_triangle (mesh : TriangleMesh)
    (m : HalfEdgeTriangleMesh) (hok : CreateFromTriangleMesh mesh = .ok m) :
    m.half_edges_.length = 3 * mesh.triangles_.length ∧
    ∀ i, (hi : i < mesh.triangles_.length) →
      (heAt m.half_edges_ (Int.ofNat (3*i))).vertex_indices_ =
        (mesh.triangles_[i].1, mesh.triangles_[i].2.1) ∧
      (heAt m.half_edges_ (Int.ofNat (3*i+1))).vertex_indices_ =
        (mesh.triangles_[i].2.1, mesh.triangles_[i].2.2) ∧
      (heAt m.half_edges_ (Int.ofNat (3*i+2))).vertex_indices_ =
        (mesh.triangles_[i].2.2, mesh.triangles_[i].1) ∧
      (heAt m.half_edges_ (Int.ofNat (3*i))).triangle_index_ = Int.ofNat i ∧
      (heAt m.half_edges_ (Int.ofNat (3*i+1))).triangle_index_ = Int.ofNat i ∧
      (heAt m.half_edges_ (Int.ofNat (3*i+2))).triangle_index_ = Int.ofNat i ∧
      (heAt m.half_edges_ (Int.ofNat (3*i))).next_ = Int.ofNat (3*i+1) ∧
      (heAt m.half_edges_ (Int.ofNat (3*i+1))).next_ = Int.ofNat (3*i+2) ∧
      (heAt m.half_edges_ (Int.ofNat (3*i+2))).next_ = Int.ofNat (3*i) := by
  obtain ⟨-, -, -, -, hm⟩ := build_ok mesh m hok
  subst hm
  simp only
  constructor
  · unfold builtHes builtOf
    rw [pairTwins_length, emitHalfEdges_length]
  · intro i hi
    have hb : ∀ k, k < 3 → 3*i+k < 3 * mesh.triangles_.length := by omega
    have hget : ∀ k, k < 3 →
        heAt (builtHes mesh) (Int.ofNat (3*i+k)) =
          (heOfIndex mesh.triangles_ (3*i+k)).setTwin
            (twinIdx (emitHalfEdges mesh.triangles_) (heOfIndex mesh.triangles_ (3*i+k))) := by
      intro k hk
      have hlt : 3*i+k < (emitHalfEdges mesh.triangles_).length := by
        rw [emitHalfEdges_length]; exact hb k hk
      unfold builtHes builtOf
      rw [pairTwins_get _ _ hlt]
      rw [← heAt_ofNat, emitHalfEdges_get _ _ (hb k hk)]
    have hgetT : mesh.triangles_[i]? = some mesh.triangles_[i] :=
      List.getElem?_eq_getElem hi
    have h0 := hget 0 (by norm_num)
    have h1 := hget 1 (by norm_num)
    have h2 := hget 2 (by norm_num)
    rw [show 3*i+0 = 3*i by ring] at h0
    have hd0a : 3*i/3 = i := by omega
    have hd0b : 3*i%3 = 0 := by omega
    have hd1a : (3*i+1)/3 = i := by omega
    have hd1b : (3*i+1)%3 = 1 := by omega
    have hd2a : (3*i+2)/3 = i := by omega
    have hd2b : (3*i+2)%3 = 2 := by omega
    have e0 : heOfIndex mesh.triangles_ (3*i) =
        ⟨Int.ofNat (3*i+1), -1,
         (mesh.triangles_[i].1, mesh.triangles_[i].2.1), Int.ofNat i⟩ := by
      simp [heOfIndex, hd0a, hd0b, hgetT]
    have e1 : heOfIndex mesh.triangles_ (3*i+1) =
        ⟨Int.ofNat (3*i+2), -1,
         (mesh.triangles_[i].2.1, mesh.triangles_[i].2.2), Int.ofNat i⟩ := by
      simp [heOfIndex, hd1a, hd1b, hgetT]
    have e2 : heOfIndex mesh.triangles_ (3*i+2) =
        ⟨Int.ofNat (3*i), -1,
         (mesh.triangles_[i].2.2, mesh.triangles_[i].1), Int.ofNat i⟩ := by
      simp [heOfIndex, hd2a, hd2b, hgetT]
    rw [h0, h1, h2, e0, e1, e2]
    simp [HalfEdge.setTwin]

/-- C7: construction yields either a fully populated store (`3 M`
half-edges, one ordered outgoing list per vertex) or one of the four typed
failures as the result value; an error result carries no store at all, so
no partial mutation reaches the caller. -/
theorem build_all_or_nothing (mesh : TriangleMesh) :
    (∃ m, CreateFromTriangleMesh mesh = .ok m ∧
       m.half_edges_.length = 3 * mesh.triangles_.length ∧
       m.ordered_half_edge_from_vertex_.length = mesh.vertices_.length ∧
       m.vertices_ = mesh.vertices_ ∧ m.triangles_ = mesh.triangles_) ∨
    CreateFromTriangleMesh mesh = .error .DegenerateTriangle ∨
    CreateFromTriangleMesh mesh = .error .NonManifoldEdge ∨
    CreateFromTriangleMesh mesh = .error .NonManifoldVertex ∨
    CreateFromTriangleMesh mesh = .error .InvalidIndex := by
  cases hE : CreateFromTriangleMesh mesh with
  | ok m =>
    left
    obtain ⟨-, -, -, -, hm⟩ := build_ok mesh m hE
    refine ⟨m, rfl, ?_, ?_, ?_, ?_⟩ <;> subst hm <;> simp only
    · unfold builtHes builtOf
      rw [pairTwins_length, emitHalfEdges_length]
    · simp
  | error e =>
    right
    cases e
    · exact Or.inl rfl
    · exact Or.inr (Or.inl rfl)
    · exact Or.inr (Or.inr (Or.inl rfl))
    · exact Or.inr (Or.inr (Or.inr rfl))

/-- C8: the non-mutating composition `A + B` (a pure function of its two
operands in this embedding) produces a store whose vertex array and
carried per-vertex attributes are the concatenations of the operands'
arrays, and whose triangle array is `A`'s triangles followed by `B`'s
triangles with `k = |A.vertices|` added to every vertex index. -/
theorem composition_concatenates (A B C : HalfEdgeTriangleMesh)
    (hok : hetAdd A B = .ok C) :
    C.vertices_ = A.vertices_ ++ B.vertices_ ∧
    C.triangles_ =
      A.triangles_ ++ B.triangles_.map (rebase (Int.ofNat A.vertices_.length)) ∧
    C.vertex_normals_ = A.vertex_normals_ ++ B.vertex_normals_ ∧
    C.vertex_colors_ = A.vertex_colors_ ++ B.vertex_colors_ ∧
    C.triangle_normals_ = A.triangle_normals_ ++ B.triangle_normals_ := by
  obtain ⟨-, -, -, -, hm⟩ := build_ok (combineSource A B) C hok
  subst hm
  exact ⟨rfl, rfl, rfl, rfl, rfl⟩

/-- C9: `Clear` discards every array (returning the empty store), and the
build is a deterministic function of the triangle source, so building,
clearing, and rebuilding from the same source yields bit-identical
half-edge arrays, per-vertex ordered lists, and boundary loop
enumerations. -/
theorem rebuild_bit_identical (src : TriangleMesh) (m1 m2 : HalfEdgeTriangleMesh)
    (h1 : CreateFromTriangleMesh src = .ok m1)
    (h2 : CreateFromTriangleMesh src = .ok m2) :
    m1.Clear = HalfEdgeTriangleMesh.empty ∧
    m1.half_edges_ = m2.half_edges_ ∧
    m1.ordered_half_edge_from_vertex_ = m2.ordered_half_edge_from_vertex_ ∧
    GetBoundaries m1 = GetBoundaries m2 := by
  have h12 : m1 = m2 := by
    exact Except.ok.inj (h1.symm.trans h2)
  subst h12
  exact ⟨rfl, rfl, rfl, rfl⟩

/-! ## Twin pairing facts -/

@[simp] theorem HalfEdge.setTwin_next (e : HalfEdge) (t : Int) :
    (e.setTwin t).next_ = e.next_ := rfl

@[simp] theorem HalfEdge.setTwin_twin (e : HalfEdge) (t : Int) :
    (e.setTwin t).twin_ = t := rfl

@[simp] theorem HalfEdge.setTwin_pair (e : HalfEdge) (t : Int) :
    (e.setTwin t).vertex_indices_ = e.vertex_indices_ := rfl

@[simp] theorem HalfEdge.setTwin_tri (e : HalfEdge) (t : Int) :
    (e.setTwin t).triangle_index_ = e.triangle_index_ := rfl

@[simp] theorem HalfEdge.setTwin_src (e : HalfEdge) (t : Int) :
    (e.setTwin t).src = e.src := rfl

@[simp] theorem HalfEdge.setTwin_dst (e : HalfEdge) (t : Int) :
    (e.setTwin t).dst = e.dst := rfl

theorem twinIdx_cases (hes : List HalfEdge) (e : HalfEdge) :
    twinIdx hes e = -1 ∨
    ∃ t : Nat, t < hes.length ∧ twinIdx hes e = Int.ofNat t ∧
      (hes.getD t HalfEdge.init).vertex_indices_ = (e.dst, e.src) := by
  unfold twinIdx
  cases hf : hes.findIdx? (fun e2 => e2.vertex_indices_ == (e.dst, e.src)) with
  | none => exact Or.inl rfl
  | some t =>
    right
    obtain ⟨ht, hp, -⟩ := List.findIdx?_eq_some_iff_getElem.mp hf
    refine ⟨t, ht, rfl, ?_⟩
    rw [List.getD_eq_getElem hes HalfEdge.init ht]
    exact eq_of_beq hp

theorem twinIdx_eq_of_pair (hes : List HalfEdge)
    (hnodup : (hes.map (fun e => e.vertex_indices_)).Nodup)
    (e : HalfEdge) (t : Nat) (ht : t < hes.length)
    (hpair : (hes.getD t HalfEdge.init).vertex_indices_ = (e.dst, e.src)) :
    twinIdx hes e = Int.ofNat t := by
  unfold twinIdx
  have hfind : hes.findIdx? (fun e2 => e2.vertex_indices_ == (e.dst, e.src)) = some t := by
    rw [List.findIdx?_eq_some_iff_getElem]
    rw [List.getD_eq_getElem hes HalfEdge.init ht] at hpair
    refine ⟨ht, by simp [hpair], ?_⟩
    intro i hit hp
    have hi : i < hes.length := Nat.lt_trans hit ht
    have hpi : hes[i].vertex_indices_ = (e.dst, e.src) := eq_of_beq (by simpa using hp)
    have heq : hes[i].vertex_indices_ = hes[t].vertex_indices_ := hpi.trans hpair.symm
    have hlen : (hes.map (fun e => e.vertex_indices_)).length = hes.length := by simp
    have hmap : (hes.map (fun e => e.vertex_indices_)).get ⟨i, by omega⟩ =
        (hes.map (fun e => e.vertex_indices_)).get ⟨t, by omega⟩ := by
      simp only [List.get_eq_getElem, List.getElem_map]
      exact heq
    have : i = t := by
      have hfin := hnodup.get_inj_iff.mp hmap
      exact congrArg Fin.val hfin
    omega
  rw [hfind]

theorem pairTwins_pairs (hes : List HalfEdge) :
    (pairTwins hes).map (fun e => e.vertex_indices_) =
      hes.map (fun e => e.vertex_indices_) := by
  unfold pairTwins
  rw [List.map_map]
  rfl

theorem built_twin_facts (hes0 : List HalfEdge)
    (hnodup : (hes0.map (fun e => e.vertex_indices_)).Nodup) :
    ∀ j : Nat, j < (pairTwins hes0).length →
      ((heAt (pairTwins hes0) (Int.ofNat j)).twin_ = -1 ∨
        validIdx (pairTwins hes0) (heAt (pairTwins hes0) (Int.ofNat j)).twin_) ∧
      ((heAt (pairTwins hes0) (Int.ofNat j)).twin_ ≠ -1 →
        (heAt (pairTwins hes0) (heAt (pairTwins hes0) (Int.ofNat j)).twin_).twin_ =
          Int.ofNat j ∧
        (heAt (pairTwins hes0) (heAt (pairTwins hes0) (Int.ofNat j)).twin_).vertex_indices_ =
          ((heAt (pairTwins hes0) (Int.ofNat j)).dst,
           (heAt (pairTwins hes0) (Int.ofNat j)).src)) := by
  intro j hj
  rw [pairTwins_length] at hj
  have hgetj := pairTwins_get hes0 j hj
  rcases twinIdx_cases hes0 (hes0.getD j HalfEdge.init) with hnone | ⟨t, ht, hsome, hpair⟩
  · constructor
    · left; rw [hgetj]; simpa using hnone
    · intro hne
      exfalso
      apply hne
      rw [hgetj]
      simpa using hnone
  · have htwinj : (heAt (pairTwins hes0) (Int.ofNat j)).twin_ = Int.ofNat t := by
      rw [hgetj]; simpa using hsome
    have hgett := pairTwins_get hes0 t ht
    have hpairj : (hes0.getD j HalfEdge.init).vertex_indices_ =
        ((hes0.getD t HalfEdge.init).dst, (hes0.getD t HalfEdge.init).src) := by
      unfold HalfEdge.dst HalfEdge.src
      rw [hpair]
      rfl
    have hback : twinIdx hes0 (hes0.getD t HalfEdge.init) = Int.ofNat j :=
      twinIdx_eq_of_pair hes0 hnodup _ j hj hpairj
    constructor
    · right
      rw [htwinj]
      exact validIdx_ofNat _ t (by rw [pairTwins_length]; exact ht)
    · intro _
      rw [htwinj, hgett]
      constructor
      · simpa using hback
      · rw [hgetj]
        simp only [HalfEdge.setTwin_pair, HalfEdge.setTwin_dst, HalfEdge.setTwin_src]
        exact hpair

/-- C2: in every successfully built store, twinning is symmetric: for every
half-edge whose twin is present, the twin's twin points back, and the
vertex pair of the twin is the reverse of the half-edge's own pair. -/
theorem built_twin_symmetric (mesh : TriangleMesh) (m : HalfEdgeTriangleMesh)
    (hok : CreateFromTriangleMesh mesh = .ok m) :
    ∀ j : Nat, j < m.half_edges_.length →
      (heAt m.half_edges_ (Int.ofNat j)).twin_ ≠ -1 →
      validIdx m.half_edges_ (heAt m.half_edges_ (Int.ofNat j)).twin_ ∧
      (heAt m.half_edges_ (heAt m.half_edges_ (Int.ofNat j)).twin_).twin_ =
        Int.ofNat j ∧
      (heAt m.half_edges_ (heAt m.half_edges_ (Int.ofNat j)).twin_).vertex_indices_ =
        ((heAt m.half_edges_ (Int.ofNat j)).dst,
         (heAt m.half_edges_ (Int.ofNat j)).src) := by
  obtain ⟨-, -, hnodup, -, hm⟩ := build_ok mesh m hok
  subst hm
  intro j hj hne
  obtain ⟨hvalid, hsym⟩ := built_twin_facts (emitHalfEdges mesh.triangles_) hnodup j hj
  rcases hvalid with h1 | h1
  · exact absurd h1 hne
  · obtain ⟨h2, h3⟩ := hsym hne
    exact ⟨h1, h2, h3⟩

/-! ## Concrete example meshes (spec section 8, concrete scenarios) -/

/-- Single triangle on three vertices (spec scenario 2). -/
def triMesh1 : TriangleMesh :=
  ⟨[(0, 0, 0), (1, 0, 0), (2, 0, 0)], [], [], [(0, 1, 2)], []⟩

/-- The store built from `triMesh1`. -/
def triStore : HalfEdgeTriangleMesh :=
  match CreateFromTriangleMesh triMesh1 with
  | .ok m => m
  | .error _ => HalfEdgeTriangleMesh.empty

/-- Square split by a diagonal: two triangles sharing edge `{0, 2}`
(spec scenario 3). -/
def squareMesh : TriangleMesh :=
  ⟨[(0, 0, 0), (1, 0, 0), (2, 0, 0), (3, 0, 0)], [], [],
   [(0, 1, 2), (0, 2, 3)], []⟩

/-- The store built from `squareMesh`. -/
def squareStore : HalfEdgeTriangleMesh :=
  match CreateFromTriangleMesh squareMesh with
  | .ok m => m
  | .error _ => HalfEdgeTriangleMesh.empty

theorem build_emits_three_half_edges_per_triangle_witness :
    CreateFromTriangleMesh triMesh1 = .ok triStore ∧
    triStore.half_edges_.length = 3 * triMesh1.triangles_.length :=
  ⟨by rfl,
   (build_emits_three_half_edges_per_triangle triMesh1 triStore (by rfl)).1⟩

theorem built_twin_symmetric_witness :
    CreateFromTriangleMesh squareMesh = .ok squareStore ∧
    2 < squareStore.half_edges_.length ∧
    (heAt squareStore.half_edges_ (Int.ofNat 2)).twin_ ≠ -1 ∧
    (heAt squareStore.half_edges_
        (heAt squareStore.half_edges_ (Int.ofNat 2)).twin_).twin_ = Int.ofNat 2 :=
  ⟨by rfl, by decide, by decide,
   (built_twin_symmetric squareMesh squareStore (by rfl) 2 (by decide)
      (by decide)).2.1⟩

/-- The store built from the disjoint union of two single triangles
(spec scenario 6). -/
def unionStore : HalfEdgeTriangleMesh :=
  match hetAdd triStore triStore with
  | .ok m => m
  | .error _ => HalfEdgeTriangleMesh.empty

theorem composition_concatenates_witness :
    hetAdd triStore triStore = .ok unionStore ∧
    unionStore.vertices_ = triStore.vertices_ ++ triStore.vertices_ ∧
    unionStore.triangles_ =
      triStore.triangles_ ++
        triStore.triangles_.map (rebase (Int.ofNat triStore.vertices_.length)) :=
  ⟨by rfl,
   (composition_concatenates triStore triStore unionStore (by rfl)).1,
   (composition_concatenates triStore triStore unionStore (by rfl)).2.1⟩

theorem rebuild_bit_identical_witness :
    CreateFromTriangleMesh triMesh1 = .ok triStore ∧
    triStore.Clear = HalfEdgeTriangleMesh.empty ∧
    GetBoundaries triStore = GetBoundaries triStore :=
  ⟨by rfl,
   (rebuild_bit_identical triMesh1 triStore triStore (by rfl) (by rfl)).1,
   (rebuild_bit_identical triMesh1 triStore triStore (by rfl) (by rfl)).2.2.2⟩

/-! ## Well-formedness of the built half-edge array -/

/-- The `k`-th vertex of a triangle (`k` is taken modulo the three
components). -/
def triComp (t : Tri) (k : Nat) : Int :=
  match k with
  | 0 => t.1
  | 1 => t.2.1
  | _ => t.2.2

theorem heOfIndex_next_eq (tris : List Tri) (j : Nat) :
    (heOfIndex tris j).next_ = Int.ofNat (3 * (j / 3) + (j % 3 + 1) % 3) := by
  have h3 : j % 3 = 0 ∨ j % 3 = 1 ∨ j % 3 = 2 := by omega
  rcases h3 with h | h | h <;> simp [heOfIndex, h]

theorem heOfIndex_src_eq (tris : List Tri) (j : Nat) :
    (heOfIndex tris j).src = triComp (tris.getD (j / 3) (-1, -1, -1)) (j % 3) := by
  have h3 : j % 3 = 0 ∨ j % 3 = 1 ∨ j % 3 = 2 := by
    omega
  rcases h3 with h | h | h <;> simp [heOfIndex, HalfEdge.src, triComp, h]

theorem heOfIndex_dst_eq (tris : List Tri) (j : Nat) :
    (heOfIndex tris j).dst =
      triComp (tris.getD (j / 3) (-1, -1, -1)) ((j % 3 + 1) % 3) := by
  have h3 : j % 3 = 0 ∨ j % 3 = 1 ∨ j % 3 = 2 := by
    omega
  rcases h3 with h | h | h <;> simp [heOfIndex, HalfEdge.dst, triComp, h]

theorem builtOf_length (tris : List Tri) :
    (builtOf tris).length = 3 * tris.length := by
  unfold builtOf
  rw [pairTwins_length, emitHalfEdges_length]

theorem builtOf_get (tris : List Tri) (j : Nat) (hj : j < 3 * tris.length) :
    heAt (builtOf tris) (Int.ofNat j) =
      (heOfIndex tris j).setTwin
        (twinIdx (emitHalfEdges tris) (heOfIndex tris j)) := by
  have hlen : j < (emitHalfEdges tris).length := by
    rw [emitHalfEdges_length]; exact hj
  unfold builtOf
  rw [pairTwins_get _ _ hlen, ← heAt_ofNat, emitHalfEdges_get _ _ hj]

theorem builtOf_next (tris : List Tri) (j : Nat) (hj : j < 3 * tris.length) :
    (heAt (builtOf tris) (Int.ofNat j)).next_ =
      Int.ofNat (3 * (j / 3) + (j % 3 + 1) % 3) := by
  rw [builtOf_get tris j hj, HalfEdge.setTwin_next, heOfIndex_next_eq]

theorem builtOf_src (tris : List Tri) (j : Nat) (hj : j < 3 * tris.length) :
    (heAt (builtOf tris) (Int.ofNat j)).src =
      triComp (tris.getD (j / 3) (-1, -1, -1)) (j % 3) := by
  rw [builtOf_get tris j hj, HalfEdge.setTwin_src, heOfIndex_src_eq]

theorem builtOf_dst (tris : List Tri) (j : Nat) (hj : j < 3 * tris.length) :
    (heAt (builtOf tris) (Int.ofNat j)).dst =
      triComp (tris.getD (j / 3) (-1, -1, -1)) ((j % 3 + 1) % 3) := by
  rw [builtOf_get tris j hj, HalfEdge.setTwin_dst, heOfIndex_dst_eq]

theorem builtOf_WF (tris : List Tri)
    (hnodup : ((emitHalfEdges tris).map (fun e => e.vertex_indices_)).Nodup) :
    WF (builtOf tris) := by
  have hlen := builtOf_length tris
  constructor
  · -- next_valid
    intro j hj
    rw [hlen] at hj
    rw [builtOf_next tris j hj]
    refine ⟨Int.ofNat_nonneg _, ?_⟩
    rw [hlen]
    rw [Int.ofNat_eq_coe, Int.toNat_ofNat]
    omega
  · -- src_next
    intro j hj
    rw [hlen] at hj
    rw [builtOf_next tris j hj]
    have hjn : 3 * (j / 3) + (j % 3 + 1) % 3 < 3 * tris.length := by omega
    rw [builtOf_src tris _ hjn, builtOf_dst tris j hj]
    rw [show (3 * (j / 3) + (j % 3 + 1) % 3) / 3 = j / 3 by omega,
        show (3 * (j / 3) + (j % 3 + 1) % 3) % 3 = (j % 3 + 1) % 3 by omega]
  · -- next3
    intro j hj
    rw [hlen] at hj
    rw [builtOf_next tris j hj]
    have hjn : 3 * (j / 3) + (j % 3 + 1) % 3 < 3 * tris.length := by omega
    rw [builtOf_next tris _ hjn]
    rw [show (3 * (j / 3) + (j % 3 + 1) % 3) / 3 = j / 3 by omega,
        show (3 * (j / 3) + (j % 3 + 1) % 3) % 3 = (j % 3 + 1) % 3 by omega]
    have hjnn : 3 * (j / 3) + ((j % 3 + 1) % 3 + 1) % 3 < 3 * tris.length := by omega
    rw [builtOf_next tris _ hjnn]
    rw [show (3 * (j / 3) + ((j % 3 + 1) % 3 + 1) % 3) / 3 = j / 3 by omega,
        show (3 * (j / 3) + ((j % 3 + 1) % 3 + 1) % 3) % 3 = ((j % 3 + 1) % 3 + 1) % 3
          by omega]
    congr 1
    omega
  · -- twin_valid
    intro j hj
    exact (built_twin_facts (emitHalfEdges tris) hnodup j hj).1
  · -- twin_sym
    intro j hj hne
    exact ((built_twin_facts (emitHalfEdges tris) hnodup j hj).2 hne).1
  · -- twin_pair
    intro j hj hne
    exact ((built_twin_facts (emitHalfEdges tris) hnodup j hj).2 hne).2

/-- The half-edge array of any successfully built store is well-formed. -/
theorem build_WF (mesh : TriangleMesh) (m : HalfEdgeTriangleMesh)
    (hok : CreateFromTriangleMesh mesh = .ok m) : WF m.half_edges_ := by
  obtain ⟨-, -, hnodup, -, hm⟩ := build_ok mesh m hok
  subst hm
  exact builtOf_WF mesh.triangles_ hnodup

/-! ## Well-formedness at arbitrary valid indices -/

theorem WF.next_valid' {hes : List HalfEdge} (hwf : WF hes) {i : Int}
    (hi : validIdx hes i) : validIdx hes (heAt hes i).next_ := by
  have := hwf.next_valid i.toNat hi.2
  rwa [ofNat_toNat_of_valid hes i hi] at this

theorem WF.src_next' {hes : List HalfEdge} (hwf : WF hes) {i : Int}
    (hi : validIdx hes i) :
    (heAt hes (heAt hes i).next_).src = (heAt hes i).dst := by
  have := hwf.src_next i.toNat hi.2
  rwa [ofNat_toNat_of_valid hes i hi] at this

theorem WF.next3' {hes : List HalfEdge} (hwf : WF hes) {i : Int}
    (hi : validIdx hes i) :
    (heAt hes (heAt hes (heAt hes i).next_).next_).next_ = i := by
  have := hwf.next3 i.toNat hi.2
  rwa [ofNat_toNat_of_valid hes i hi] at this

theorem WF.twin_valid' {hes : List HalfEdge} (hwf : WF hes) {i : Int}
    (hi : validIdx hes i) :
    (heAt hes i).twin_ = -1 ∨ validIdx hes (heAt hes i).twin_ := by
  have := hwf.twin_valid i.toNat hi.2
  rwa [ofNat_toNat_of_valid hes i hi] at this

theorem WF.twin_sym' {hes : List HalfEdge} (hwf : WF hes) {i : Int}
    (hi : validIdx hes i) (hne : (heAt hes i).twin_ ≠ -1) :
    (heAt hes (heAt hes i).twin_).twin_ = i := by
  have h1 := hwf.twin_sym i.toNat hi.2
  rw [ofNat_toNat_of_valid hes i hi] at h1
  exact h1 hne

theorem WF.twin_pair' {hes : List HalfEdge} (hwf : WF hes) {i : Int}
    (hi : validIdx hes i) (hne : (heAt hes i).twin_ ≠ -1) :
    (heAt hes (heAt hes i).twin_).vertex_indices_ =
      ((heAt hes i).dst, (heAt hes i).src) := by
  have h1 := hwf.twin_pair i.toNat hi.2
  rw [ofNat_toNat_of_valid hes i hi] at h1
  exact h1 hne

/-! ## The counter-clockwise fan step -/

theorem valid_ne_neg_one {hes : List HalfEdge} {i : Int} (hi : validIdx hes i) :
    i ≠ -1 := by
  intro h
  rw [h] at hi
  exact absurd hi.1 (by norm_num)

theorem fan_step_cases {hes : List HalfEdge} (hwf : WF hes) {i : Int}
    (hi : validIdx hes i) :
    NextHalfEdgeFromVertex hes i = -1 ∨
    (validIdx hes (NextHalfEdgeFromVertex hes i) ∧
     (heAt hes (NextHalfEdgeFromVertex hes i)).src = (heAt hes i).src ∧
     (heAt hes (NextHalfEdgeFromVertex hes i)).IsBoundary = false) := by
  have hn1 : validIdx hes (heAt hes i).next_ := hwf.next_valid' hi
  have hn2 : validIdx hes (heAt hes (heAt hes i).next_).next_ := hwf.next_valid' hn1
  rcases hwf.twin_valid' hn2 with htw | htw
  · left
    exact htw
  · right
    have hne : (heAt hes (heAt hes (heAt hes i).next_).next_).twin_ ≠ -1 :=
      valid_ne_neg_one htw
    refine ⟨htw, ?_, ?_⟩
    · -- src of the step equals src of i
      have hpair := hwf.twin_pair' hn2 hne
      have hsrc : (heAt hes (NextHalfEdgeFromVertex hes i)).src =
          (heAt hes (heAt hes (heAt hes i).next_).next_).dst := by
        unfold NextHalfEdgeFromVertex HalfEdge.src
        rw [hpair]
      rw [hsrc]
      have hdst : (heAt hes (heAt hes (heAt hes i).next_).next_).dst =
          (heAt hes (heAt hes (heAt hes (heAt hes i).next_).next_).next_).src :=
        (hwf.src_next' hn2).symm
      rw [hdst, hwf.next3' hi]
    · -- the step's twin is present, so it is not boundary
      have hsym := hwf.twin_sym' hn2 hne
      unfold NextHalfEdgeFromVertex
      unfold HalfEdge.IsBoundary
      rw [hsym]
      simp [valid_ne_neg_one hn2]

theorem fan_step_inj {hes : List HalfEdge} (hwf : WF hes) {i1 i2 : Int}
    (h1 : validIdx hes i1) (h2 : validIdx hes i2)
    (hne : NextHalfEdgeFromVertex hes i1 ≠ -1)
    (heq : NextHalfEdgeFromVertex hes i1 = NextHalfEdgeFromVertex hes i2) :
    i1 = i2 := by
  have hn1 : validIdx hes (heAt hes i1).next_ := hwf.next_valid' h1
  have hn2 : validIdx hes (heAt hes (heAt hes i1).next_).next_ := hwf.next_valid' hn1
  have hm1 : validIdx hes (heAt hes i2).next_ := hwf.next_valid' h2
  have hm2 : validIdx hes (heAt hes (heAt hes i2).next_).next_ := hwf.next_valid' hm1
  have hs1 := hwf.twin_sym' hn2 (by unfold NextHalfEdgeFromVertex at hne; exact hne)
  have hs2 := hwf.twin_sym' hm2 (by
    unfold NextHalfEdgeFromVertex at hne heq
    rw [heq] at hne
    exact hne)
  have hnn : (heAt hes (heAt hes i1).next_).next_ =
      (heAt hes (heAt hes i2).next_).next_ := by
    unfold NextHalfEdgeFromVertex at heq
    rw [← hs1, ← hs2, heq]
  have e1 := hwf.next3' h1
  have e2 := hwf.next3' h2
  rw [← e1, ← e2, hnn]

/-- C4: for every half-edge `h` of a well-formed store, the
next-around-vertex primitive returns `twin(next(next(h)))`; the result is
the absent value `-1` exactly when `next(next(h))` is boundary, and
otherwise it is a valid half-edge out of the same source vertex as `h`
(the CCW successor). -/
theorem next_around_vertex_spec (hes : List HalfEdge) (hwf : WF hes)
    (j : Nat) (hj : j < hes.length) :
    NextHalfEdgeFromVertex hes (Int.ofNat j) =
      (heAt hes (heAt hes (heAt hes (Int.ofNat j)).next_).next_).twin_ ∧
    ((heAt hes (heAt hes (heAt hes (Int.ofNat j)).next_).next_).IsBoundary = true ↔
      NextHalfEdgeFromVertex hes (Int.ofNat j) = -1) ∧
    (NextHalfEdgeFromVertex hes (Int.ofNat j) ≠ -1 →
      validIdx hes (NextHalfEdgeFromVertex hes (Int.ofNat j)) ∧
      (heAt hes (NextHalfEdgeFromVertex hes (Int.ofNat j))).src =
        (heAt hes (Int.ofNat j)).src) := by
  have hvj : validIdx hes (Int.ofNat j) := validIdx_ofNat hes j hj
  refine ⟨rfl, ?_, ?_⟩
  · constructor
    · intro hb
      unfold NextHalfEdgeFromVertex
      unfold HalfEdge.IsBoundary at hb
      exact eq_of_beq hb
    · intro hb
      unfold NextHalfEdgeFromVertex at hb
      unfold HalfEdge.IsBoundary
      rw [show ((Int.ofNat j : Int)) = ((j : Int)) from rfl] at hb
      simp [hb]
  · intro hne
    rcases fan_step_cases hwf hvj with h | ⟨ha, hb, -⟩
    · exact absurd h hne
    · exact ⟨ha, hb⟩

/-! ## The boundary rotation step -/

theorem isBoundary_false_iff (e : HalfEdge) :
    e.IsBoundary = false ↔ e.twin_ ≠ -1 := by
  unfold HalfEdge.IsBoundary
  simp

theorem isBoundary_true_iff (e : HalfEdge) :
    e.IsBoundary = true ↔ e.twin_ = -1 := by
  unfold HalfEdge.IsBoundary
  simp

theorem next_inj {hes : List HalfEdge} (hwf : WF hes) {a b : Int}
    (ha : validIdx hes a) (hb : validIdx hes b)
    (h : (heAt hes a).next_ = (heAt hes b).next_) : a = b := by
  have e1 := hwf.next3' ha
  have e2 := hwf.next3' hb
  rw [← e1, ← e2, h]

theorem twin_valid_of_not_boundary {hes : List HalfEdge} (hwf : WF hes)
    {u : Int} (hu : validIdx hes u) (hnb : (heAt hes u).IsBoundary = false) :
    validIdx hes (heAt hes u).twin_ := by
  have htw : (heAt hes u).twin_ ≠ -1 := (isBoundary_false_iff _).mp hnb
  rcases hwf.twin_valid' hu with h | h
  · exact absurd h htw
  · exact h

theorem rot_step_good {hes : List HalfEdge} (hwf : WF hes) {u : Int}
    (hu : validIdx hes u) (hnb : (heAt hes u).IsBoundary = false) :
    validIdx hes (rotStep hes u) ∧
    (heAt hes (rotStep hes u)).src = (heAt hes u).src := by
  have htw : (heAt hes u).twin_ ≠ -1 := (isBoundary_false_iff _).mp hnb
  have htv : validIdx hes (heAt hes u).twin_ := twin_valid_of_not_boundary hwf hu hnb
  constructor
  · exact hwf.next_valid' htv
  · have h1 : (heAt hes (rotStep hes u)).src = (heAt hes (heAt hes u).twin_).dst := by
      rw [show rotStep hes u = (heAt hes (heAt hes u).twin_).next_ from rfl]
      exact hwf.src_next' htv
    have h2 : (heAt hes (heAt hes u).twin_).dst = (heAt hes u).src := by
      have hp := hwf.twin_pair' hu htw
      unfold HalfEdge.dst HalfEdge.src at hp ⊢
      rw [hp]
    rw [h1, h2]

theorem rot_step_inj {hes : List HalfEdge} (hwf : WF hes) {u1 u2 : Int}
    (h1 : validIdx hes u1) (h2 : validIdx hes u2)
    (hnb1 : (heAt hes u1).IsBoundary = false)
    (hnb2 : (heAt hes u2).IsBoundary = false)
    (heq : rotStep hes u1 = rotStep hes u2) : u1 = u2 := by
  have htv1 : validIdx hes (heAt hes u1).twin_ := twin_valid_of_not_boundary hwf h1 hnb1
  have htv2 : validIdx hes (heAt hes u2).twin_ := twin_valid_of_not_boundary hwf h2 hnb2
  have htwin : (heAt hes u1).twin_ = (heAt hes u2).twin_ := next_inj hwf htv1 htv2 heq
  have hs1 := hwf.twin_sym' h1 ((isBoundary_false_iff _).mp hnb1)
  have hs2 := hwf.twin_sym' h2 ((isBoundary_false_iff _).mp hnb2)
  rw [← hs1, ← hs2, htwin]

theorem rot_iter_good {hes : List HalfEdge} (hwf : WF hes) {h : Int}
    (hh : validIdx hes h) :
    ∀ k, (∀ j < k,
        (heAt hes ((rotStep hes)^[j] ((heAt hes h).next_))).IsBoundary = false) →
      validIdx hes ((rotStep hes)^[k] ((heAt hes h).next_)) ∧
      (heAt hes ((rotStep hes)^[k] ((heAt hes h).next_))).src = (heAt hes h).dst := by
  intro k
  induction k with
  | zero =>
    intro _
    simp only [Function.iterate_zero, id]
    exact ⟨hwf.next_valid' hh, hwf.src_next' hh⟩
  | succ k ih =>
    intro hall
    have ihk := ih (fun j hj => hall j (by omega))
    have hnb := hall k (by omega)
    have hstep := rot_step_good hwf ihk.1 hnb
    rw [Function.iterate_succ_apply']
    exact ⟨hstep.1, by rw [hstep.2, ihk.2]⟩

theorem rot_min_peel {hes : List HalfEdge} (hwf : WF hes) :
    ∀ k1 k2 (h1 h2 : Int), k1 ≤ k2 →
      validIdx hes h1 → validIdx hes h2 →
      (heAt hes h1).IsBoundary = true → (heAt hes h2).IsBoundary = true →
      (∀ j < k1,
        (heAt hes ((rotStep hes)^[j] ((heAt hes h1).next_))).IsBoundary = false) →
      (∀ j < k2,
        (heAt hes ((rotStep hes)^[j] ((heAt hes h2).next_))).IsBoundary = false) →
      (rotStep hes)^[k1] ((heAt hes h1).next_) =
        (rotStep hes)^[k2] ((heAt hes h2).next_) →
      h1 = h2 ∧ k1 = k2 := by
  intro k1
  induction k1 with
  | zero =>
    intro k2 h1 h2 hle hv1 hv2 hb1 hb2 hmin1 hmin2 heq
    cases k2 with
    | zero =>
      simp only [Function.iterate_zero, id] at heq
      exact ⟨next_inj hwf hv1 hv2 heq, rfl⟩
    | succ k2' =>
      exfalso
      rw [Function.iterate_succ_apply'] at heq
      simp only [Function.iterate_zero, id] at heq
      have hwgood := rot_iter_good hwf hv2 k2' (fun j hj => hmin2 j (by omega))
      have hwnb := hmin2 k2' (by omega)
      have htw_ne : (heAt hes ((rotStep hes)^[k2'] ((heAt hes h2).next_))).twin_ ≠ -1 :=
        (isBoundary_false_iff _).mp hwnb
      have htwv := twin_valid_of_not_boundary hwf hwgood.1 hwnb
      have hh1 : h1 = (heAt hes ((rotStep hes)^[k2'] ((heAt hes h2).next_))).twin_ :=
        next_inj hwf hv1 htwv heq
      have hsym := hwf.twin_sym' hwgood.1 htw_ne
      rw [← hh1] at hsym
      have hne : (heAt hes h1).twin_ ≠ -1 := by
        rw [hsym]
        exact valid_ne_neg_one hwgood.1
      rw [isBoundary_true_iff] at hb1
      exact hne hb1
  | succ k1' ih =>
    intro k2 h1 h2 hle hv1 hv2 hb1 hb2 hmin1 hmin2 heq
    cases k2 with
    | zero => omega
    | succ k2' =>
      rw [Function.iterate_succ_apply', Function.iterate_succ_apply'] at heq
      have hg1 := rot_iter_good hwf hv1 k1' (fun j hj => hmin1 j (by omega))
      have hg2 := rot_iter_good hwf hv2 k2' (fun j hj => hmin2 j (by omega))
      have heq' := rot_step_inj hwf hg1.1 hg2.1 (hmin1 k1' (by omega))
        (hmin2 k2' (by omega)) heq
      obtain ⟨hh, hk⟩ := ih k2' h1 h2 (by omega) hv1 hv2 hb1 hb2
        (fun j hj => hmin1 j (by omega)) (fun j hj => hmin2 j (by omega)) heq'
      exact ⟨hh, by omega⟩

/-! ## Termination of the boundary search -/

theorem boundary_reachable {hes : List HalfEdge} (hwf : WF hes) {h : Int}
    (hv : validIdx hes h) (hb : (heAt hes h).IsBoundary = true) :
    ∃ k < hes.length,
      (heAt hes ((rotStep hes)^[k] ((heAt hes h).next_))).IsBoundary = true := by
  by_contra hcon
  push_neg at hcon
  have hall : ∀ k < hes.length,
      (heAt hes ((rotStep hes)^[k] ((heAt hes h).next_))).IsBoundary = false := by
    intro k hk
    have := hcon k hk
    exact Bool.not_eq_true _ |>.mp this
  have hn : 0 < hes.length := by
    have := hv.2
    omega
  -- pigeonhole: the length-many iterates avoid the boundary index `h`,
  -- so two of them coincide
  have hvalid : ∀ k : Fin hes.length,
      validIdx hes ((rotStep hes)^[k.1] ((heAt hes h).next_)) := by
    intro k
    exact (rot_iter_good hwf hv k.1 (fun j hj => hall j (by omega))).1
  let F : Fin hes.length → Fin hes.length := fun k =>
    ⟨((rotStep hes)^[k.1] ((heAt hes h).next_)).toNat, (hvalid k).2⟩
  have hmaps : ∀ k : Fin hes.length, k ∈ Finset.univ →
      F k ∈ Finset.univ.erase (⟨h.toNat, hv.2⟩ : Fin hes.length) := by
    intro k _
    rw [Finset.mem_erase]
    refine ⟨?_, Finset.mem_univ _⟩
    intro hFk
    have : ((rotStep hes)^[k.1] ((heAt hes h).next_)).toNat = h.toNat := by
      have := congrArg Fin.val hFk
      simpa [F] using this
    have huk : (rotStep hes)^[k.1] ((heAt hes h).next_) = h := by
      have h1 := (hvalid k).1
      have h2 := hv.1
      omega
    have := hall k.1 k.2
    rw [huk] at this
    rw [this] at hb
    exact Bool.false_ne_true hb
  have hcard : (Finset.univ.erase (⟨h.toNat, hv.2⟩ : Fin hes.length)).card <
      (Finset.univ : Finset (Fin hes.length)).card := by
    rw [Finset.card_erase_of_mem (Finset.mem_univ _)]
    have : (Finset.univ : Finset (Fin hes.length)).card = hes.length := by simp
    omega
  obtain ⟨i, -, j, -, hij, hFij⟩ :=
    Finset.exists_ne_map_eq_of_card_lt_of_maps_to hcard hmaps
  have hueq : (rotStep hes)^[i.1] ((heAt hes h).next_) =
      (rotStep hes)^[j.1] ((heAt hes h).next_) := by
    have hv1 := (hvalid i).1
    have hv2 := (hvalid j).1
    have : ((rotStep hes)^[i.1] ((heAt hes h).next_)).toNat =
        ((rotStep hes)^[j.1] ((heAt hes h).next_)).toNat := by
      have := congrArg Fin.val hFij
      simpa [F] using this
    omega
  have hij' : i.1 ≠ j.1 := fun hc => hij (Fin.ext hc)
  rcases Nat.lt_or_ge i.1 j.1 with hlt | hge
  · obtain ⟨-, hk⟩ := rot_min_peel hwf i.1 j.1 h h (by omega) hv hv hb hb
      (fun a ha => hall a (by omega)) (fun a ha => hall a (by omega)) hueq
    omega
  · have hlt : j.1 < i.1 := by omega
    obtain ⟨-, hk⟩ := rot_min_peel hwf j.1 i.1 h h (by omega) hv hv hb hb
      (fun a ha => hall a (by omega)) (fun a ha => hall a (by omega)) hueq.symm
    omega

theorem nextOnBoundaryAux_spec (hes : List HalfEdge) :
    ∀ fuel (u0 : Int),
      (∃ k < fuel, (heAt hes ((rotStep hes)^[k] u0)).IsBoundary = true) →
      ∃ k0, k0 < fuel ∧
        (heAt hes ((rotStep hes)^[k0] u0)).IsBoundary = true ∧
        (∀ j < k0, (heAt hes ((rotStep hes)^[j] u0)).IsBoundary = false) ∧
        nextOnBoundaryAux hes fuel u0 = (rotStep hes)^[k0] u0 := by
  intro fuel
  induction fuel with
  | zero =>
    intro u0 hex
    obtain ⟨k, hk, -⟩ := hex
    omega
  | succ fuel ih =>
    intro u0 hex
    by_cases hb0 : (heAt hes u0).IsBoundary = true
    · refine ⟨0, by omega, by simpa using hb0, by omega, ?_⟩
      simp only [nextOnBoundaryAux, hb0, if_true]
      simp
    · have hb0' : (heAt hes u0).IsBoundary = false := Bool.not_eq_true _ |>.mp hb0
      obtain ⟨k, hk, hbk⟩ := hex
      have hkne : k ≠ 0 := by
        intro h0
        rw [h0] at hbk
        simp only [Function.iterate_zero, id] at hbk
        exact hb0 hbk
      have hex' : ∃ k' < fuel, (heAt hes ((rotStep hes)^[k'] (rotStep hes u0))).IsBoundary = true := by
        refine ⟨k - 1, by omega, ?_⟩
        have hbk' : (heAt hes ((rotStep hes)^[k - 1 + 1] u0)).IsBoundary = true := by
          rw [show k - 1 + 1 = k by omega]
          exact hbk
        rw [Function.iterate_succ_apply] at hbk'
        exact hbk'
      obtain ⟨k0, hk0, hb1, hmin, heq⟩ := ih (rotStep hes u0) hex'
      refine ⟨k0 + 1, by omega, ?_, ?_, ?_⟩
      · rw [Function.iterate_succ_apply]
        exact hb1
      · intro j hj
        cases j with
        | zero => simpa using hb0'
        | succ j' =>
          rw [Function.iterate_succ_apply]
          exact hmin j' (by omega)
      · simp only [nextOnBoundaryAux, hb0', Bool.false_eq_true, if_false, heq,
          Function.iterate_succ_apply]

/-! ## Next half-edge along the boundary -/

theorem next_on_boundary_eq_iter {hes : List HalfEdge} (hwf : WF hes)
    {h : Int} (hv : validIdx hes h) (hb : (heAt hes h).IsBoundary = true) :
    ∃ k0 < hes.length,
      NextHalfEdgeOnBoundary hes h = (rotStep hes)^[k0] ((heAt hes h).next_) ∧
      (heAt hes ((rotStep hes)^[k0] ((heAt hes h).next_))).IsBoundary = true ∧
      ∀ j < k0, (heAt hes ((rotStep hes)^[j] ((heAt hes h).next_))).IsBoundary = false := by
  obtain ⟨k, hk, hbk⟩ := boundary_reachable hwf hv hb
  obtain ⟨k0, hk0, hbdry, hmin, heq⟩ :=
    nextOnBoundaryAux_spec hes hes.length ((heAt hes h).next_) ⟨k, hk, hbk⟩
  exact ⟨k0, hk0, heq, hbdry, hmin⟩

/-- C5: for every boundary half-edge `h` of a well-formed store, the
next-along-boundary primitive (starting from `next(h)` and repeatedly
applying twin-then-next until a boundary half-edge is reached) returns a
valid boundary half-edge `r` with `src(r) = dst(h)`. -/
theorem next_along_boundary_spec (hes : List HalfEdge) (hwf : WF hes)
    (h : Int) (hv : validIdx hes h) (hb : (heAt hes h).IsBoundary = true) :
    (heAt hes (NextHalfEdgeOnBoundary hes h)).IsBoundary = true ∧
    validIdx hes (NextHalfEdgeOnBoundary hes h) ∧
    (heAt hes (NextHalfEdgeOnBoundary hes h)).src = (heAt hes h).dst := by
  obtain ⟨k0, hk0, heq, hbdry, hmin⟩ := next_on_boundary_eq_iter hwf hv hb
  have hgood := rot_iter_good hwf hv k0 hmin
  rw [heq]
  exact ⟨hbdry, hgood.1, hgood.2⟩

theorem next_on_boundary_inj {hes : List HalfEdge} (hwf : WF hes)
    {h1 h2 : Int} (hv1 : validIdx hes h1) (hv2 : validIdx hes h2)
    (hb1 : (heAt hes h1).IsBoundary = true)
    (hb2 : (heAt hes h2).IsBoundary = true)
    (heq : NextHalfEdgeOnBoundary hes h1 = NextHalfEdgeOnBoundary hes h2) :
    h1 = h2 := by
  obtain ⟨k1, hk1, he1, hb1', hm1⟩ := next_on_boundary_eq_iter hwf hv1 hb1
  obtain ⟨k2, hk2, he2, hb2', hm2⟩ := next_on_boundary_eq_iter hwf hv2 hb2
  have hit : (rotStep hes)^[k1] ((heAt hes h1).next_) =
      (rotStep hes)^[k2] ((heAt hes h2).next_) := by
    rw [← he1, ← he2, heq]
  rcases Nat.le_total k1 k2 with hle | hle
  · exact (rot_min_peel hwf k1 k2 h1 h2 hle hv1 hv2 hb1 hb2 hm1 hm2 hit).1
  · exact ((rot_min_peel hwf k2 k1 h2 h1 hle hv2 hv1 hb2 hb1 hm2 hm1 hit.symm).1).symm

theorem next_around_vertex_spec_witness :
    0 < squareStore.half_edges_.length ∧
    NextHalfEdgeFromVertex squareStore.half_edges_ (Int.ofNat 0) =
      (heAt squareStore.half_edges_
        (heAt squareStore.half_edges_
          (heAt squareStore.half_edges_ (Int.ofNat 0)).next_).next_).twin_ :=
  ⟨by decide, (next_around_vertex_spec squareStore.half_edges_
      (build_WF squareMesh squareStore (by rfl)) 0 (by decide)).1⟩

theorem next_along_boundary_spec_witness :
    validIdx squareStore.half_edges_ 1 ∧
    (heAt squareStore.half_edges_ 1).IsBoundary = true ∧
    (heAt squareStore.half_edges_
        (NextHalfEdgeOnBoundary squareStore.half_edges_ 1)).src =
      (heAt squareStore.half_edges_ 1).dst :=
  ⟨by decide, by decide,
   (next_along_boundary_spec squareStore.half_edges_
      (build_WF squareMesh squareStore (by rfl)) 1 (by decide) (by decide)).2.2⟩

/-! ## The counter-clockwise fan walk -/

theorem fanWalkAux_spec (hes : List HalfEdge) (start : Int) :
    ∀ fuel cur,
      (fanWalkAux hes start fuel cur).length ≤ fuel ∧
      (0 < fuel →
        fanWalkAux hes start fuel cur =
          (List.range (fanWalkAux hes start fuel cur).length).map
            (fun k => (NextHalfEdgeFromVertex hes)^[k] cur) ∧
        0 < (fanWalkAux hes start fuel cur).length ∧
        (∀ k, k + 1 < (fanWalkAux hes start fuel cur).length →
          (NextHalfEdgeFromVertex hes)^[k+1] cur ≠ -1 ∧
          (NextHalfEdgeFromVertex hes)^[k+1] cur ≠ start) ∧
        ((fanWalkAux hes start fuel cur).length < fuel →
          (NextHalfEdgeFromVertex hes)^[(fanWalkAux hes start fuel cur).length] cur = -1 ∨
          (NextHalfEdgeFromVertex hes)^[(fanWalkAux hes start fuel cur).length] cur = start)) := by
  intro fuel
  induction fuel with
  | zero =>
    intro cur
    exact ⟨by simp [fanWalkAux], by omega⟩
  | succ fuel ih =>
    intro cur
    by_cases hstop : NextHalfEdgeFromVertex hes cur = -1 ∨
        NextHalfEdgeFromVertex hes cur = start
    · have hL : fanWalkAux hes start (fuel + 1) cur = [cur] := by
        unfold fanWalkAux
        have : (NextHalfEdgeFromVertex hes cur == -1 ||
            NextHalfEdgeFromVertex hes cur == start) = true := by
          rcases hstop with h | h <;> simp [h]
        simp only [this, if_true]
      rw [hL]
      refine ⟨by simp, fun _ => ⟨by simp, by simp, by simp, fun _ => ?_⟩⟩
      simpa using hstop
    · push_neg at hstop
      have hbool : (NextHalfEdgeFromVertex hes cur == -1 ||
          NextHalfEdgeFromVertex hes cur == start) = false := by
        simp [hstop.1, hstop.2]
      have hL : fanWalkAux hes start (fuel + 1) cur =
          cur :: fanWalkAux hes start fuel (NextHalfEdgeFromVertex hes cur) := by
        simp only [fanWalkAux]
        simp only [hbool, Bool.false_eq_true, if_false]
      rw [hL]
      obtain ⟨ihlen, ihrest⟩ := ih (NextHalfEdgeFromVertex hes cur)
      cases Nat.eq_zero_or_pos fuel with
      | inl hf0 =>
        subst hf0
        have : fanWalkAux hes start 0 (NextHalfEdgeFromVertex hes cur) = [] := by
          simp [fanWalkAux]
        rw [this]
        refine ⟨by simp, fun _ => ⟨by simp, by simp, ?_, ?_⟩⟩
        · intro k hk
          simp only [List.length_cons, List.length_nil] at hk
          omega
        · intro hlt
          simp only [List.length_cons, List.length_nil] at hlt
          omega
      | inr hfpos =>
        obtain ⟨ihmap, ihpos, ihchain, ihterm⟩ := ihrest hfpos
        constructor
        · simp only [List.length_cons]
          omega
        · intro _
          refine ⟨?_, by simp, ?_, ?_⟩
          · -- map representation
            simp only [List.length_cons]
            rw [List.range_succ_eq_map, List.map_cons]
            simp only [Function.iterate_zero, id]
            congr 1
            conv_lhs => rw [ihmap]
            rw [List.map_map]
            apply List.map_congr_left
            intro k hk
            simp only [Function.comp_apply]
            rw [Function.iterate_succ_apply]
          · -- chain
            intro k hk
            simp only [List.length_cons] at hk
            cases k with
            | zero => exact ⟨hstop.1, hstop.2⟩
            | succ k' =>
              have := ihchain k' (by omega)
              rw [Function.iterate_succ_apply]
              exact this
          · -- proper termination
            intro hlt
            simp only [List.length_cons] at hlt ⊢
            have := ihterm (by omega)
            rw [Function.iterate_succ_apply]
            exact this

/-! ## The outgoing half-edges of a vertex -/

theorem outgoing_mem (hes : List HalfEdge) (v : Nat) (e : Int) :
    e ∈ outgoing hes v ↔ validIdx hes e ∧ (heAt hes e).src = Int.ofNat v := by
  unfold outgoing
  rw [List.mem_filter]
  constructor
  · rintro ⟨hmem, hsrc⟩
    rw [List.mem_map] at hmem
    obtain ⟨j, hj, rfl⟩ := hmem
    rw [List.mem_range] at hj
    exact ⟨validIdx_ofNat hes j hj, eq_of_beq hsrc⟩
  · rintro ⟨hvalid, hsrc⟩
    constructor
    · rw [List.mem_map]
      refine ⟨e.toNat, ?_, ofNat_toNat_of_valid hes e hvalid⟩
      rw [List.mem_range]
      exact hvalid.2
    · simp [hsrc]

theorem outgoing_nodup (hes : List HalfEdge) (v : Nat) :
    (outgoing hes v).Nodup := by
  unfold outgoing
  apply List.Nodup.filter
  apply List.Nodup.map
  · intro a b hab
    exact Int.ofNat_inj.mp hab
  · exact List.nodup_range _

theorem fan_iter_mem {hes : List HalfEdge} (hwf : WF hes) {v : Nat} {start : Int}
    (hstart : start ∈ outgoing hes v) :
    ∀ k, (∀ j < k, (NextHalfEdgeFromVertex hes)^[j+1] start ≠ -1) →
      (NextHalfEdgeFromVertex hes)^[k] start ∈ outgoing hes v := by
  intro k
  induction k with
  | zero =>
    intro _
    simpa using hstart
  | succ k ih =>
    intro hall
    have hk := ih (fun j hj => hall j (by omega))
    have hvk : validIdx hes ((NextHalfEdgeFromVertex hes)^[k] start) :=
      ((outgoing_mem hes v _).mp hk).1
    have hsrck := ((outgoing_mem hes v _).mp hk).2
    have hne := hall k (by omega)
    rw [Function.iterate_succ_apply'] at hne ⊢
    rcases fan_step_cases hwf hvk with h | ⟨ha, hb, -⟩
    · exact absurd h hne
    · rw [outgoing_mem]
      exact ⟨ha, by rw [hb, hsrck]⟩

theorem fan_iter_inj {hes : List HalfEdge} (hwf : WF hes) {v : Nat} {start : Int}
    (hstart : start ∈ outgoing hes v) (len : Nat)
    (hchain : ∀ k, k + 1 < len →
      (NextHalfEdgeFromVertex hes)^[k+1] start ≠ -1 ∧
      (NextHalfEdgeFromVertex hes)^[k+1] start ≠ start) :
    ∀ i j, i < j → j < len →
      (NextHalfEdgeFromVertex hes)^[i] start ≠ (NextHalfEdgeFromVertex hes)^[j] start := by
  intro i
  induction i with
  | zero =>
    intro j hij hjlen heq
    simp only [Function.iterate_zero, id] at heq
    have hj1 : j - 1 + 1 < len := by omega
    have := (hchain (j - 1) hj1).2
    rw [show j - 1 + 1 = j by omega] at this
    exact this heq.symm
  | succ i ih =>
    intro j hij hjlen heq
    cases j with
    | zero => omega
    | succ j' =>
      -- peel one step using injectivity of the fan step
      have hvi : validIdx hes ((NextHalfEdgeFromVertex hes)^[i] start) :=
        ((outgoing_mem hes v _).mp (fan_iter_mem hwf hstart i
          (fun a ha => (hchain a (by omega)).1))).1
      have hvj : validIdx hes ((NextHalfEdgeFromVertex hes)^[j'] start) :=
        ((outgoing_mem hes v _).mp (fan_iter_mem hwf hstart j'
          (fun a ha => (hchain a (by omega)).1))).1
      have hnei : (NextHalfEdgeFromVertex hes)^[i+1] start ≠ -1 :=
        (hchain i (by omega)).1
      rw [Function.iterate_succ_apply', Function.iterate_succ_apply'] at heq
      rw [Function.iterate_succ_apply'] at hnei
      have heqp := fan_step_inj hwf hvi hvj hnei heq
      exact ih j' (by omega) (by omega) heqp

/-! ## The ordered outgoing list of a vertex -/

theorem ooe_spec {hes : List HalfEdge} (hwf : WF hes) (v : Nat)
    (hlen : (ooeOfVertex hes v).length = (outgoing hes v).length) :
    (ooeOfVertex hes v).Perm (outgoing hes v) ∧
    (ooeOfVertex hes v).Nodup ∧
    (∀ k, k + 1 < (ooeOfVertex hes v).length →
      (ooeOfVertex hes v).getD (k+1) (-1) =
        NextHalfEdgeFromVertex hes ((ooeOfVertex hes v).getD k (-1))) ∧
    ((∃ b ∈ outgoing hes v, (heAt hes b).IsBoundary = true) →
      (heAt hes ((ooeOfVertex hes v).getD 0 (-1))).IsBoundary = true) := by
  cases houtg : outgoing hes v with
  | nil =>
    have hempty : ooeOfVertex hes v = [] := by
      unfold ooeOfVertex
      rw [houtg]
    rw [hempty]
    refine ⟨List.Perm.refl _, List.nodup_nil, ?_, ?_⟩
    · intro k hk
      simp at hk
    · rintro ⟨b, hb, -⟩
      simp at hb
  | cons a t =>
    -- the chosen starting half-edge
    have hooe : ooeOfVertex hes v =
        fanWalkAux hes
          (match (a :: t).find? (fun j => (heAt hes j).IsBoundary) with
           | some b => b
           | none => (a :: t).headD (-1))
          ((a :: t).length + 1)
          (match (a :: t).find? (fun j => (heAt hes j).IsBoundary) with
           | some b => b
           | none => (a :: t).headD (-1)) := by
      unfold ooeOfVertex
      rw [houtg]
    set s0 := (match (a :: t).find? (fun j => (heAt hes j).IsBoundary) with
           | some b => b
           | none => (a :: t).headD (-1)) with hs0
    have hstart : s0 ∈ outgoing hes v := by
      rw [houtg, hs0]
      cases hfind : (a :: t).find? (fun j => (heAt hes j).IsBoundary) with
      | none => simp
      | some b =>
        simp only
        exact List.mem_of_find?_eq_some hfind
    obtain ⟨-, hrest⟩ := fanWalkAux_spec hes s0 ((a :: t).length + 1) s0
    obtain ⟨hmap, hpos, hchain, -⟩ := hrest (by omega)
    rw [← hooe] at hmap hpos hchain
    have hlen2 : (ooeOfVertex hes v).length = (a :: t).length := by
      rw [hlen, houtg]
    have hchain' : ∀ k, k + 1 < (ooeOfVertex hes v).length →
        (NextHalfEdgeFromVertex hes)^[k+1] s0 ≠ -1 ∧
        (NextHalfEdgeFromVertex hes)^[k+1] s0 ≠ s0 := hchain
    have hget : ∀ k, k < (ooeOfVertex hes v).length →
        (ooeOfVertex hes v).getD k (-1) = (NextHalfEdgeFromVertex hes)^[k] s0 := by
      intro k hk
      conv_lhs => rw [hmap]
      rw [List.getD_eq_getElem?_getD, List.getElem?_map, List.getElem?_range hk]
      rfl
    have hnodup : (ooeOfVertex hes v).Nodup := by
      rw [hmap]
      apply List.Nodup.map_on ?_ (List.nodup_range _)
      intro x hx y hy hxy
      rw [List.mem_range] at hx hy
      by_contra hne
      rcases Nat.lt_or_ge x y with hlt | hge
      · exact fan_iter_inj hwf hstart (ooeOfVertex hes v).length hchain' x y hlt hy hxy
      · have hlt : y < x := by omega
        exact fan_iter_inj hwf hstart (ooeOfVertex hes v).length hchain' y x hlt hx
          hxy.symm
    have hsub : (ooeOfVertex hes v) ⊆ outgoing hes v := by
      intro e he
      rw [hmap, List.mem_map] at he
      obtain ⟨k, hk, rfl⟩ := he
      rw [List.mem_range] at hk
      exact fan_iter_mem hwf hstart k (fun j hj => (hchain' j (by omega)).1)
    have hperm : (ooeOfVertex hes v).Perm (outgoing hes v) :=
      (List.subperm_of_subset hnodup hsub).perm_of_length_le (by omega)
    rw [houtg] at hperm
    refine ⟨hperm, hnodup, ?_, ?_⟩
    · intro k hk
      rw [hget (k+1) hk, hget k (by omega), Function.iterate_succ_apply']
    · rintro ⟨b, hb, hbbd⟩
      rw [hget 0 (by omega)]
      simp only [Function.iterate_zero, id]
      cases hfind : (a :: t).find? (fun j => (heAt hes j).IsBoundary) with
      | none =>
        exfalso
        have := List.find?_eq_none.mp hfind b hb
        exact this hbbd
      | some b' =>
        have hs0' : s0 = b' := by
          rw [hs0, hfind]
        rw [hs0']
        have hpb := List.find?_some hfind
        simpa using hpb

/-- The C3 facts as a reusable lemma: the ordered outgoing lists of a
successful build are duplicate-free CCW fans over the outgoing sets. -/
theorem built_ooe_facts (mesh : TriangleMesh) (m : HalfEdgeTriangleMesh)
    (hok : CreateFromTriangleMesh mesh = .ok m) :
    ∀ v, v < m.vertices_.length →
      (m.ordered_half_edge_from_vertex_.getD v []).Perm
        (outgoing m.half_edges_ v) ∧
      (m.ordered_half_edge_from_vertex_.getD v []).Nodup ∧
      (∀ k, k + 1 < (m.ordered_half_edge_from_vertex_.getD v []).length →
        (m.ordered_half_edge_from_vertex_.getD v []).getD (k+1) (-1) =
          NextHalfEdgeFromVertex m.half_edges_
            ((m.ordered_half_edge_from_vertex_.getD v []).getD k (-1))) ∧
      ((∃ b ∈ outgoing m.half_edges_ v,
          (heAt m.half_edges_ b).IsBoundary = true) →
        (heAt m.half_edges_
          ((m.ordered_half_edge_from_vertex_.getD v []).getD 0 (-1))).IsBoundary
            = true) := by
  obtain ⟨-, -, hnodup, hooelen, hm⟩ := build_ok mesh m hok
  subst hm
  intro v hv
  simp only at hv ⊢
  have hord : ((List.range mesh.vertices_.length).map
      (ooeOfVertex (builtHes mesh))).getD v [] =
      ooeOfVertex (builtHes mesh) v := by
    rw [List.getD_eq_getElem?_getD, List.getElem?_map, List.getElem?_range hv]
    rfl
  rw [hord]
  exact ooe_spec (builtOf_WF mesh.triangles_ hnodup) v (hooelen v hv)

/-- C3: in every successfully built store, the ordered outgoing list of
each vertex `v` is a duplicate-free permutation of the set of half-edges
whose source is `v`, consecutive entries are linked by the CCW successor
primitive (counter-clockwise fan order), and if `v` is a boundary vertex
(some outgoing half-edge is boundary) then the first entry is a boundary
half-edge. -/
theorem built_ordered_fan (mesh : TriangleMesh) (m : HalfEdgeTriangleMesh)
    (hok : CreateFromTriangleMesh mesh = .ok m) :
    ∀ v, v < m.vertices_.length →
      (m.ordered_half_edge_from_vertex_.getD v []).Perm
        (outgoing m.half_edges_ v) ∧
      (m.ordered_half_edge_from_vertex_.getD v []).Nodup ∧
      (∀ k, k + 1 < (m.ordered_half_edge_from_vertex_.getD v []).length →
        (m.ordered_half_edge_from_vertex_.getD v []).getD (k+1) (-1) =
          NextHalfEdgeFromVertex m.half_edges_
            ((m.ordered_half_edge_from_vertex_.getD v []).getD k (-1))) ∧
      ((∃ b ∈ outgoing m.half_edges_ v,
          (heAt m.half_edges_ b).IsBoundary = true) →
        (heAt m.half_edges_
          ((m.ordered_half_edge_from_vertex_.getD v []).getD 0 (-1))).IsBoundary
            = true) :=
  built_ooe_facts mesh m hok

theorem built_ordered_fan_witness :
    CreateFromTriangleMesh squareMesh = .ok squareStore ∧
    0 < squareStore.vertices_.length ∧
    (squareStore.ordered_half_edge_from_vertex_.getD 0 []).Perm
      (outgoing squareStore.half_edges_ 0) :=
  ⟨by rfl, by decide,
   (built_ordered_fan squareMesh squareStore (by rfl) 0 (by decide)).1⟩

/-! ## The boundary-loop walk -/

theorem boundaryLoopAux_spec (hes : List HalfEdge) (start : Int) :
    ∀ fuel cur,
      (boundaryLoopAux hes start fuel cur).length ≤ fuel ∧
      (0 < fuel →
        boundaryLoopAux hes start fuel cur =
          (List.range (boundaryLoopAux hes start fuel cur).length).map
            (fun k => (NextHalfEdgeOnBoundary hes)^[k] cur) ∧
        0 < (boundaryLoopAux hes start fuel cur).length ∧
        (∀ k, k + 1 < (boundaryLoopAux hes start fuel cur).length →
          (NextHalfEdgeOnBoundary hes)^[k+1] cur ≠ start) ∧
        ((boundaryLoopAux hes start fuel cur).length < fuel →
          (NextHalfEdgeOnBoundary hes)^[(boundaryLoopAux hes start fuel cur).length] cur
            = start)) := by
  intro fuel
  induction fuel with
  | zero =>
    intro cur
    exact ⟨by simp [boundaryLoopAux], by omega⟩
  | succ fuel ih =>
    intro cur
    by_cases hstop : NextHalfEdgeOnBoundary hes cur = start
    · have hL : boundaryLoopAux hes start (fuel + 1) cur = [cur] := by
        simp only [boundaryLoopAux]
        simp [hstop]
      rw [hL]
      refine ⟨by simp, fun _ => ⟨by simp, by simp, ?_, fun _ => by simpa using hstop⟩⟩
      intro k hk
      simp only [List.length_cons, List.length_nil] at hk
      omega
    · have hbool : (NextHalfEdgeOnBoundary hes cur == start) = false := by
        simp [hstop]
      have hL : boundaryLoopAux hes start (fuel + 1) cur =
          cur :: boundaryLoopAux hes start fuel (NextHalfEdgeOnBoundary hes cur) := by
        simp only [boundaryLoopAux]
        simp only [hbool, Bool.false_eq_true, if_false]
      rw [hL]
      obtain ⟨ihlen, ihrest⟩ := ih (NextHalfEdgeOnBoundary hes cur)
      cases Nat.eq_zero_or_pos fuel with
      | inl hf0 =>
        subst hf0
        have hnil : boundaryLoopAux hes start 0 (NextHalfEdgeOnBoundary hes cur) = [] := by
          simp [boundaryLoopAux]
        rw [hnil]
        refine ⟨by simp, fun _ => ⟨by simp, by simp, ?_, ?_⟩⟩
        · intro k hk
          simp only [List.length_cons, List.length_nil] at hk
          omega
        · intro hlt
          simp only [List.length_cons, List.length_nil] at hlt
          omega
      | inr hfpos =>
        obtain ⟨ihmap, ihpos, ihchain, ihterm⟩ := ihrest hfpos
        constructor
        · simp only [List.length_cons]
          omega
        · intro _
          refine ⟨?_, by simp, ?_, ?_⟩
          · simp only [List.length_cons]
            rw [List.range_succ_eq_map, List.map_cons]
            simp only [Function.iterate_zero, id]
            congr 1
            conv_lhs => rw [ihmap]
            rw [List.map_map]
            apply List.map_congr_left
            intro k hk
            simp only [Function.comp_apply]
            rw [Function.iterate_succ_apply]
          · intro k hk
            simp only [List.length_cons] at hk
            cases k with
            | zero => exact hstop
            | succ k' =>
              have := ihchain k' (by omega)
              rw [Function.iterate_succ_apply]
              exact this
          · intro hlt
            simp only [List.length_cons] at hlt ⊢
            have := ihterm (by omega)
            rw [Function.iterate_succ_apply]
            exact this

/-! ## Orbits of the boundary successor -/

/-- A valid boundary half-edge index. -/
def isBdr (hes : List HalfEdge) (e : Int) : Prop :=
  validIdx hes e ∧ (heAt hes e).IsBoundary = true

instance (hes : List HalfEdge) (e : Int) : Decidable (isBdr hes e) := by
  unfold isBdr; infer_instance

theorem sigma_maps_Bd {hes : List HalfEdge} (hwf : WF hes) {e : Int}
    (he : isBdr hes e) :
    isBdr hes (NextHalfEdgeOnBoundary hes e) ∧
    (heAt hes (NextHalfEdgeOnBoundary hes e)).src = (heAt hes e).dst := by
  obtain ⟨hbd, hv, hsrc⟩ := next_along_boundary_spec hes hwf e he.1 he.2
  exact ⟨⟨hv, hbd⟩, hsrc⟩

theorem sigma_iter_Bd {hes : List HalfEdge} (hwf : WF hes) {e : Int}
    (he : isBdr hes e) :
    ∀ k, isBdr hes ((NextHalfEdgeOnBoundary hes)^[k] e) := by
  intro k
  induction k with
  | zero => simpa using he
  | succ k ih =>
    rw [Function.iterate_succ_apply']
    exact (sigma_maps_Bd hwf ih).1

theorem sigma_iter_peel {hes : List HalfEdge} (hwf : WF hes) {e : Int}
    (he : isBdr hes e) :
    ∀ i j, i ≤ j →
      (NextHalfEdgeOnBoundary hes)^[i] e = (NextHalfEdgeOnBoundary hes)^[j] e →
      e = (NextHalfEdgeOnBoundary hes)^[j-i] e := by
  intro i
  induction i with
  | zero =>
    intro j _ h
    simpa using h
  | succ i ih =>
    intro j hij h
    cases j with
    | zero => omega
    | succ j' =>
      rw [Function.iterate_succ_apply', Function.iterate_succ_apply'] at h
      have hbi := sigma_iter_Bd hwf he i
      have hbj := sigma_iter_Bd hwf he j'
      have heq := next_on_boundary_inj hwf hbi.1 hbj.1 hbi.2 hbj.2 h
      have := ih j' (by omega) heq
      rw [show j' + 1 - (i + 1) = j' - i by omega]
      exact this

theorem sigma_orbit_return {hes : List HalfEdge} (hwf : WF hes) {e : Int}
    (he : isBdr hes e) :
    ∃ p, 0 < p ∧ p ≤ hes.length ∧ (NextHalfEdgeOnBoundary hes)^[p] e = e := by
  set n := hes.length with hn
  have hnpos : 0 < n := by
    have := he.1.2
    omega
  have hvalid : ∀ k : Fin (n + 1),
      validIdx hes ((NextHalfEdgeOnBoundary hes)^[k.1] e) :=
    fun k => (sigma_iter_Bd hwf he k.1).1
  let F : Fin (n + 1) → Fin n := fun k =>
    ⟨((NextHalfEdgeOnBoundary hes)^[k.1] e).toNat, (hvalid k).2⟩
  have hcard : (Finset.univ : Finset (Fin n)).card <
      (Finset.univ : Finset (Fin (n + 1))).card := by
    simp
  have hmaps : ∀ k : Fin (n + 1), k ∈ Finset.univ → F k ∈ Finset.univ :=
    fun k _ => Finset.mem_univ _
  obtain ⟨i, -, j, -, hij, hFij⟩ :=
    Finset.exists_ne_map_eq_of_card_lt_of_maps_to hcard hmaps
  have hueq : (NextHalfEdgeOnBoundary hes)^[i.1] e =
      (NextHalfEdgeOnBoundary hes)^[j.1] e := by
    have h1 := (hvalid i).1
    have h2 := (hvalid j).1
    have h3 : ((NextHalfEdgeOnBoundary hes)^[i.1] e).toNat =
        ((NextHalfEdgeOnBoundary hes)^[j.1] e).toNat := by
      have := congrArg Fin.val hFij
      simpa [F] using this
    omega
  have hij' : i.1 ≠ j.1 := fun hc => hij (Fin.ext hc)
  rcases Nat.lt_or_ge i.1 j.1 with hlt | hge
  · have := sigma_iter_peel hwf he i.1 j.1 (by omega) hueq
    exact ⟨j.1 - i.1, by omega, by have := j.2; omega, this.symm⟩
  · have hlt : j.1 < i.1 := by omega
    have := sigma_iter_peel hwf he j.1 i.1 (by omega) hueq.symm
    exact ⟨i.1 - j.1, by omega, by have := i.2; omega, this.symm⟩

theorem boundaryLoop_orbit {hes : List HalfEdge} (hwf : WF hes) {e : Int}
    (he : isBdr hes e) :
    ∃ p0, 0 < p0 ∧ p0 ≤ hes.length ∧
      (NextHalfEdgeOnBoundary hes)^[p0] e = e ∧
      (∀ q, 0 < q → q < p0 → (NextHalfEdgeOnBoundary hes)^[q] e ≠ e) ∧
      boundaryLoop hes e =
        (List.range p0).map (fun k => (NextHalfEdgeOnBoundary hes)^[k] e) := by
  obtain ⟨p, hp_pos, hp_le, hp_eq⟩ := sigma_orbit_return hwf he
  have hexQ : ∃ q, 0 < q ∧ (NextHalfEdgeOnBoundary hes)^[q] e = e := ⟨p, hp_pos, hp_eq⟩
  classical
  let p0 := Nat.find hexQ
  obtain ⟨hp0_pos, hp0_eq⟩ : 0 < p0 ∧ (NextHalfEdgeOnBoundary hes)^[p0] e = e :=
    Nat.find_spec hexQ
  have hp0_min : ∀ q, 0 < q → q < p0 → (NextHalfEdgeOnBoundary hes)^[q] e ≠ e := by
    intro q hq0 hqlt hqe
    exact Nat.find_min hexQ hqlt ⟨hq0, hqe⟩
  have hp0_le : p0 ≤ p := Nat.find_min' hexQ ⟨hp_pos, hp_eq⟩
  obtain ⟨hlen_le, hrest⟩ := boundaryLoopAux_spec hes e hes.length e
  have hnpos : 0 < hes.length := by
    have := he.1.2
    omega
  obtain ⟨hmap, hpos, hchain, hterm⟩ := hrest hnpos
  have hlen_eq : (boundaryLoopAux hes e hes.length e).length = p0 := by
    rcases Nat.lt_or_ge (boundaryLoopAux hes e hes.length e).length hes.length with hlt | hge
    · have hstop := hterm hlt
      have hQ : 0 < (boundaryLoopAux hes e hes.length e).length ∧
          (NextHalfEdgeOnBoundary hes)^[(boundaryLoopAux hes e hes.length e).length] e = e :=
        ⟨hpos, hstop⟩
      have hle1 : p0 ≤ (boundaryLoopAux hes e hes.length e).length :=
        Nat.find_min' hexQ hQ
      rcases Nat.lt_or_ge p0 (boundaryLoopAux hes e hes.length e).length with hl2 | hg2
      · exfalso
        have := hchain (p0 - 1) (by omega)
        rw [show p0 - 1 + 1 = p0 by omega] at this
        exact this hp0_eq
      · omega
    · have hlen_n : (boundaryLoopAux hes e hes.length e).length = hes.length := by omega
      rcases Nat.lt_or_ge p0 hes.length with hl2 | hg2
      · exfalso
        have := hchain (p0 - 1) (by omega)
        rw [show p0 - 1 + 1 = p0 by omega] at this
        exact this hp0_eq
      · omega
  refine ⟨p0, hp0_pos, by omega, hp0_eq, hp0_min, ?_⟩
  unfold boundaryLoop
  rw [hmap, hlen_eq]

theorem sigma_iter_mul {hes : List HalfEdge} {e : Int} {p0 : Nat}
    (hp : (NextHalfEdgeOnBoundary hes)^[p0] e = e) :
    ∀ q, (NextHalfEdgeOnBoundary hes)^[p0 * q] e = e := by
  intro q
  induction q with
  | zero => simp
  | succ q ihq =>
    rw [Nat.mul_succ, Function.iterate_add_apply, hp, ihq]

theorem sigma_iter_mod {hes : List HalfEdge} {e : Int} {p0 : Nat}
    (hp : (NextHalfEdgeOnBoundary hes)^[p0] e = e) (hp0 : 0 < p0) :
    ∀ m, (NextHalfEdgeOnBoundary hes)^[m] e =
      (NextHalfEdgeOnBoundary hes)^[m % p0] e := by
  intro m
  conv_lhs => rw [show m = m % p0 + p0 * (m / p0) from (Nat.mod_add_div m p0).symm]
  rw [Function.iterate_add_apply, sigma_iter_mul hp]

theorem mem_boundaryLoop_iff {hes : List HalfEdge} (hwf : WF hes) {e : Int}
    (he : isBdr hes e) {x : Int} :
    x ∈ boundaryLoop hes e ↔ ∃ k, x = (NextHalfEdgeOnBoundary hes)^[k] e := by
  obtain ⟨p0, hp0, -, hpe, -, hrepr⟩ := boundaryLoop_orbit hwf he
  rw [hrepr]
  constructor
  · intro hx
    rw [List.mem_map] at hx
    obtain ⟨k, -, rfl⟩ := hx
    exact ⟨k, rfl⟩
  · rintro ⟨k, rfl⟩
    rw [List.mem_map]
    refine ⟨k % p0, ?_, (sigma_iter_mod hpe hp0 k).symm⟩
    rw [List.mem_range]
    exact Nat.mod_lt _ hp0

theorem self_mem_boundaryLoop {hes : List HalfEdge} (hwf : WF hes) {e : Int}
    (he : isBdr hes e) : e ∈ boundaryLoop hes e := by
  rw [mem_boundaryLoop_iff hwf he]
  exact ⟨0, rfl⟩

theorem boundaryLoop_mem_Bd {hes : List HalfEdge} (hwf : WF hes) {e : Int}
    (he : isBdr hes e) {x : Int} (hx : x ∈ boundaryLoop hes e) :
    isBdr hes x := by
  rw [mem_boundaryLoop_iff hwf he] at hx
  obtain ⟨k, rfl⟩ := hx
  exact sigma_iter_Bd hwf he k

theorem boundaryLoop_nodup {hes : List HalfEdge} (hwf : WF hes) {e : Int}
    (he : isBdr hes e) : (boundaryLoop hes e).Nodup := by
  obtain ⟨p0, hp0, -, hpe, hmin, hrepr⟩ := boundaryLoop_orbit hwf he
  rw [hrepr]
  apply List.Nodup.map_on ?_ (List.nodup_range _)
  intro x hx y hy hxy
  rw [List.mem_range] at hx hy
  by_contra hne
  rcases Nat.lt_or_ge x y with hlt | hge
  · have := sigma_iter_peel hwf he x y (by omega) hxy
    exact hmin (y - x) (by omega) (by omega) this.symm
  · have hlt : y < x := by omega
    have := sigma_iter_peel hwf he y x (by omega) hxy.symm
    exact hmin (x - y) (by omega) (by omega) this.symm

theorem mem_loop_symm {hes : List HalfEdge} (hwf : WF hes) {e x : Int}
    (he : isBdr hes e) (hx : x ∈ boundaryLoop hes e) :
    e ∈ boundaryLoop hes x := by
  have hbx : isBdr hes x := boundaryLoop_mem_Bd hwf he hx
  obtain ⟨p0, hp0, -, hpe, -, -⟩ := boundaryLoop_orbit hwf he
  rw [mem_boundaryLoop_iff hwf he] at hx
  obtain ⟨k, rfl⟩ := hx
  rw [mem_boundaryLoop_iff hwf hbx]
  refine ⟨p0 * (k / p0 + 1) - k, ?_⟩
  rw [← Function.iterate_add_apply]
  have hmadd := Nat.mod_add_div k p0
  have hmlt : k % p0 < p0 := Nat.mod_lt _ hp0
  have hle : k ≤ p0 * (k / p0 + 1) := by
    rw [Nat.mul_succ]
    omega
  rw [show p0 * (k / p0 + 1) - k + k = p0 * (k / p0 + 1) by omega]
  exact (sigma_iter_mul hpe _).symm

theorem loop_subset_of_mem {hes : List HalfEdge} (hwf : WF hes) {e x : Int}
    (he : isBdr hes e) (hx : x ∈ boundaryLoop hes e) :
    boundaryLoop hes x ⊆ boundaryLoop hes e := by
  have hbx : isBdr hes x := boundaryLoop_mem_Bd hwf he hx
  rw [mem_boundaryLoop_iff hwf he] at hx
  obtain ⟨k, rfl⟩ := hx
  intro y hy
  rw [mem_boundaryLoop_iff hwf hbx] at hy
  obtain ⟨j, rfl⟩ := hy
  rw [mem_boundaryLoop_iff hwf he]
  exact ⟨j + k, by rw [Function.iterate_add_apply]⟩

theorem loop_eq_of_mem {hes : List HalfEdge} (hwf : WF hes) {e x : Int}
    (he : isBdr hes e) (hx : x ∈ boundaryLoop hes e) :
    ∀ y, y ∈ boundaryLoop hes x ↔ y ∈ boundaryLoop hes e := by
  intro y
  constructor
  · exact fun hy => loop_subset_of_mem hwf he hx hy
  · intro hy
    have hbx : isBdr hes x := boundaryLoop_mem_Bd hwf he hx
    have hex : e ∈ boundaryLoop hes x := mem_loop_symm hwf he hx
    exact loop_subset_of_mem hwf hbx hex hy

/-! ## Built-store facts for the boundary scan -/

theorem boundaryLoop_head {hes : List HalfEdge} (hwf : WF hes) {e : Int}
    (he : isBdr hes e) : (boundaryLoop hes e).getD 0 (-1) = e := by
  obtain ⟨p0, hp0, -, -, -, hrepr⟩ := boundaryLoop_orbit hwf he
  rw [hrepr]
  rw [List.getD_eq_getElem?_getD, List.getElem?_map, List.getElem?_range (by omega)]
  simp

theorem builtOf_src_bound (tris : List Tri) (N : Nat)
    (hval : tris.all (triValid N) = true) (j : Nat) (hj : j < 3 * tris.length) :
    0 ≤ (heAt (builtOf tris) (Int.ofNat j)).src ∧
    ((heAt (builtOf tris) (Int.ofNat j)).src).toNat < N := by
  rw [builtOf_src tris j hj]
  have hjd : j / 3 < tris.length := by omega
  have ht : tris.getD (j/3) (-1,-1,-1) = tris[j/3] := List.getD_eq_getElem _ _ hjd
  have hmem : tris[j/3] ∈ tris := List.getElem_mem _
  have hv := List.all_eq_true.mp hval _ hmem
  unfold triValid at hv
  simp only [Bool.and_eq_true, decide_eq_true_eq, Int.ofNat_eq_coe] at hv
  rw [ht]
  have h3 : j % 3 = 0 ∨ j % 3 = 1 ∨ j % 3 = 2 := by omega
  rcases h3 with h | h | h <;> simp only [triComp, h] <;> omega

theorem built_src_bound (mesh : TriangleMesh) (m : HalfEdgeTriangleMesh)
    (hok : CreateFromTriangleMesh mesh = .ok m) :
    ∀ e, validIdx m.half_edges_ e →
      0 ≤ (heAt m.half_edges_ e).src ∧
      ((heAt m.half_edges_ e).src).toNat < m.vertices_.length := by
  obtain ⟨hval, -, -, -, hm⟩ := build_ok mesh m hok
  subst hm
  intro e he
  simp only at he ⊢
  have hlen : (builtHes mesh).length = 3 * mesh.triangles_.length := builtOf_length _
  rw [← ofNat_toNat_of_valid _ e he]
  exact builtOf_src_bound mesh.triangles_ mesh.vertices_.length hval e.toNat
    (by have := he.2; omega)

theorem built_boundary_unique (mesh : TriangleMesh) (m : HalfEdgeTriangleMesh)
    (hok : CreateFromTriangleMesh mesh = .ok m) :
    ∀ v, v < m.vertices_.length → ∀ b, b ∈ outgoing m.half_edges_ v →
      (heAt m.half_edges_ b).IsBoundary = true →
      b = (m.ordered_half_edge_from_vertex_.getD v []).getD 0 (-1) := by
  intro v hv b hb hbd
  have hwf : WF m.half_edges_ := build_WF mesh m hok
  obtain ⟨hperm, hnodup, hchain, hhead⟩ := built_ooe_facts mesh m hok v hv
  have hbL : b ∈ m.ordered_half_edge_from_vertex_.getD v [] :=
    hperm.mem_iff.mpr hb
  rw [List.mem_iff_getElem] at hbL
  obtain ⟨k, hk, hbk⟩ := hbL
  cases k with
  | zero =>
    rw [← hbk, List.getD_eq_getElem _ _ hk]
  | succ k' =>
    exfalso
    have hk' : k' < (m.ordered_half_edge_from_vertex_.getD v []).length := by omega
    have hchaink := hchain k' hk
    have hLk : (m.ordered_half_edge_from_vertex_.getD v []).getD (k'+1) (-1) = b := by
      rw [List.getD_eq_getElem _ _ hk, hbk]
    have hLk' : (m.ordered_half_edge_from_vertex_.getD v []).getD k' (-1) =
        (m.ordered_half_edge_from_vertex_.getD v [])[k'] :=
      List.getD_eq_getElem _ _ hk'
    have hmem' : (m.ordered_half_edge_from_vertex_.getD v [])[k'] ∈
        outgoing m.half_edges_ v :=
      hperm.mem_iff.mp (List.getElem_mem _)
    have hvalid' : validIdx m.half_edges_
        ((m.ordered_half_edge_from_vertex_.getD v [])[k']) :=
      ((outgoing_mem _ _ _).mp hmem').1
    have hbvalid : validIdx m.half_edges_ b := ((outgoing_mem _ _ _).mp hb).1
    rcases fan_step_cases hwf hvalid' with hstep | ⟨-, -, hnb⟩
    · rw [hchaink, hLk', hstep] at hLk
      exact (valid_ne_neg_one hbvalid) hLk.symm
    · rw [← hLk', ← hchaink, hLk] at hnb
      rw [hnb] at hbd
      exact Bool.false_ne_true hbd

theorem built_head_src (mesh : TriangleMesh) (m : HalfEdgeTriangleMesh)
    (hok : CreateFromTriangleMesh mesh = .ok m) :
    ∀ v, v < m.vertices_.length →
      ∀ h0 rest, m.ordered_half_edge_from_vertex_.getD v [] = h0 :: rest →
        h0 ∈ outgoing m.half_edges_ v ∧
        validIdx m.half_edges_ h0 ∧
        (heAt m.half_edges_ h0).src = Int.ofNat v := by
  intro v hv h0 rest hL
  obtain ⟨hperm, -, -, -⟩ := built_ooe_facts mesh m hok v hv
  have hmem : h0 ∈ outgoing m.half_edges_ v := by
    apply hperm.mem_iff.mp
    rw [hL]
    exact List.mem_cons_self _ _
  have := (outgoing_mem _ _ _).mp hmem
  exact ⟨hmem, this.1, this.2⟩

theorem built_outgoing_nonempty (mesh : TriangleMesh) (m : HalfEdgeTriangleMesh)
    (hok : CreateFromTriangleMesh mesh = .ok m) :
    ∀ v, v < m.vertices_.length →
      ∀ e, e ∈ outgoing m.half_edges_ v →
        m.ordered_half_edge_from_vertex_.getD v [] ≠ [] := by
  intro v hv e he hnil
  obtain ⟨hperm, -, -, -⟩ := built_ooe_facts mesh m hok v hv
  have : e ∈ m.ordered_half_edge_from_vertex_.getD v [] := hperm.mem_iff.mpr he
  rw [hnil] at this
  simp at this

/-! ## The GetBoundaries scan invariant -/

theorem gbStep_eq_nil (m : HalfEdgeTriangleMesh) (acc : List Int × List (List Int))
    (v : Nat) (h : m.ordered_half_edge_from_vertex_.getD v [] = []) :
    gbStep m acc v = acc := by
  unfold gbStep
  rw [h]

theorem gbStep_eq_cons (m : HalfEdgeTriangleMesh) (acc : List Int × List (List Int))
    (v : Nat) (h0 : Int) (rest : List Int)
    (h : m.ordered_half_edge_from_vertex_.getD v [] = h0 :: rest) :
    gbStep m acc v =
      (if ((heAt m.half_edges_ h0).IsBoundary && !(acc.1.contains h0)) = true
       then (acc.1 ++ boundaryLoop m.half_edges_ h0,
             acc.2 ++ [boundaryLoop m.half_edges_ h0])
       else acc) := by
  unfold gbStep
  rw [h]

/-- Invariant of the `GetBoundaries` scan after the vertices below `k` have
been processed: the visited set is the union of the emitted loops, each
emitted loop is a boundary orbit, the loops are pairwise disjoint, every
boundary half-edge whose orbit touches a vertex below `k` is already
visited, each loop starts at its lowest source vertex, launch vertices are
below `k`, and the loops are emitted in increasing order of their starting
vertex. -/
def gbInv (m : HalfEdgeTriangleMesh) (k : Nat)
    (acc : List Int × List (List Int)) : Prop :=
  acc.1 = acc.2.flatten ∧
  (∀ L ∈ acc.2, ∃ h0, isBdr m.half_edges_ h0 ∧ L = boundaryLoop m.half_edges_ h0) ∧
  List.Pairwise List.Disjoint acc.2 ∧
  (∀ e, isBdr m.half_edges_ e →
    (∃ e2 ∈ boundaryLoop m.half_edges_ e, ((heAt m.half_edges_ e2).src).toNat < k) →
    e ∈ acc.1) ∧
  (∀ L ∈ acc.2, ∀ e ∈ L,
    ((heAt m.half_edges_ (L.getD 0 (-1))).src).toNat ≤
      ((heAt m.half_edges_ e).src).toNat) ∧
  (∀ L ∈ acc.2, ((heAt m.half_edges_ (L.getD 0 (-1))).src).toNat < k) ∧
  List.Pairwise (fun L1 L2 =>
    ((heAt m.half_edges_ (L1.getD 0 (-1))).src).toNat <
    ((heAt m.half_edges_ (L2.getD 0 (-1))).src).toNat) acc.2

theorem gbStep_inv (mesh : TriangleMesh) (m : HalfEdgeTriangleMesh)
    (hok : CreateFromTriangleMesh mesh = .ok m) (k : Nat)
    (hk : k < m.vertices_.length) (acc : List Int × List (List Int))
    (hinv : gbInv m k acc) : gbInv m (k + 1) (gbStep m acc k) := by
  have hwf : WF m.half_edges_ := build_WF mesh m hok
  obtain ⟨hflat, hloops, hdisj, hcov, hmin, hheadlt, hsorted⟩ := hinv
  -- a boundary half-edge whose source vertex is `k` is the head of OOE[k]
  have hsrck_out : ∀ e2, isBdr m.half_edges_ e2 →
      ((heAt m.half_edges_ e2).src).toNat = k → e2 ∈ outgoing m.half_edges_ k := by
    intro e2 hb2 hs2
    rw [outgoing_mem]
    refine ⟨hb2.1, ?_⟩
    have hnn := (built_src_bound mesh m hok e2 hb2.1).1
    rw [Int.ofNat_eq_coe]
    omega
  cases hL : m.ordered_half_edge_from_vertex_.getD k [] with
  | nil =>
    rw [gbStep_eq_nil m acc k hL]
    refine ⟨hflat, hloops, hdisj, ?_, hmin,
      fun L hL2 => Nat.lt_succ_of_lt (hheadlt L hL2), hsorted⟩
    rintro e he ⟨e2, he2, hsrc⟩
    rcases Nat.lt_or_ge ((heAt m.half_edges_ e2).src).toNat k with h | h
    · exact hcov e he ⟨e2, he2, h⟩
    · exfalso
      have hbe2 : isBdr m.half_edges_ e2 := boundaryLoop_mem_Bd hwf he he2
      exact built_outgoing_nonempty mesh m hok k hk e2
        (hsrck_out e2 hbe2 (by omega)) hL
  | cons h0 rest =>
    obtain ⟨hh0out, hh0valid, hh0src⟩ := built_head_src mesh m hok k hk h0 rest hL
    -- a boundary half-edge out of vertex k equals h0
    have huniq : ∀ e2, isBdr m.half_edges_ e2 →
        ((heAt m.half_edges_ e2).src).toNat = k → e2 = h0 := by
      intro e2 hb2 hs2
      have := built_boundary_unique mesh m hok k hk e2
        (hsrck_out e2 hb2 hs2) hb2.2
      rw [hL] at this
      simpa using this
    rw [gbStep_eq_cons m acc k h0 rest hL]
    by_cases hguard : ((heAt m.half_edges_ h0).IsBoundary && !(acc.1.contains h0)) = true
    · -- launch a new loop at h0
      rw [if_pos hguard]
      simp only [Bool.and_eq_true, Bool.not_eq_true'] at hguard
      obtain ⟨hh0bd, hh0new⟩ := hguard
      have hh0notin : h0 ∉ acc.1 := by
        intro hmem
        have hcontains : acc.1.contains h0 = true := List.elem_iff.mpr hmem
        rw [hh0new] at hcontains
        exact Bool.false_ne_true hcontains
      have hbdr0 : isBdr m.half_edges_ h0 := ⟨hh0valid, hh0bd⟩
      have hhead_new : (boundaryLoop m.half_edges_ h0).getD 0 (-1) = h0 :=
        boundaryLoop_head hwf hbdr0
      have hsrc0 : ((heAt m.half_edges_ h0).src).toNat = k := by
        rw [hh0src]
        simp
      -- nothing in the new loop is already visited
      have hno : ∀ x, x ∈ boundaryLoop m.half_edges_ h0 → x ∉ acc.1 := by
        intro x hx hxin
        rw [hflat, List.mem_flatten] at hxin
        obtain ⟨Lold, hLold, hxLold⟩ := hxin
        obtain ⟨bold, hbold, rfl⟩ := hloops Lold hLold
        have hh0x : h0 ∈ boundaryLoop m.half_edges_ x :=
          mem_loop_symm hwf hbdr0 hx
        have hsub : boundaryLoop m.half_edges_ x ⊆ boundaryLoop m.half_edges_ bold :=
          loop_subset_of_mem hwf hbold hxLold
        have : h0 ∈ boundaryLoop m.half_edges_ bold := hsub hh0x
        apply hh0notin
        rw [hflat, List.mem_flatten]
        exact ⟨boundaryLoop m.half_edges_ bold, hLold, this⟩
      refine ⟨?_, ?_, ?_, ?_, ?_, ?_, ?_⟩
      · -- visited = flatten
        simp only [List.flatten_append, List.flatten_cons, List.flatten_nil,
          List.append_nil]
        rw [hflat]
      · -- loops are orbits
        intro L hL2
        rw [List.mem_append] at hL2
        rcases hL2 with h | h
        · exact hloops L h
        · rw [List.mem_singleton] at h
          exact ⟨h0, hbdr0, h⟩
      · -- pairwise disjoint
        rw [List.pairwise_append]
        refine ⟨hdisj, by simp, ?_⟩
        intro Lold hLold Lnew hLnew
        rw [List.mem_singleton] at hLnew
        subst hLnew
        intro x hxold hxnew
        exact hno x hxnew (by rw [hflat, List.mem_flatten]; exact ⟨Lold, hLold, hxold⟩)
      · -- coverage
        rintro e he ⟨e2, he2, hsrc⟩
        rw [List.mem_append]
        rcases Nat.lt_or_ge ((heAt m.half_edges_ e2).src).toNat k with h | h
        · exact Or.inl (hcov e he ⟨e2, he2, h⟩)
        · right
          have hbe2 : isBdr m.half_edges_ e2 := boundaryLoop_mem_Bd hwf he he2
          have he2h0 : e2 = h0 := huniq e2 hbe2 (by omega)
          subst he2h0
          -- e2 = h0 ∈ loop e, so e ∈ loop h0
          have : ∀ y, y ∈ boundaryLoop m.half_edges_ e2 ↔
              y ∈ boundaryLoop m.half_edges_ e := loop_eq_of_mem hwf he he2
          exact (this e).mpr (self_mem_boundaryLoop hwf he)
      · -- each loop starts at its lowest source vertex
        intro L hL2
        rw [List.mem_append] at hL2
        rcases hL2 with h | h
        · exact hmin L h
        · rw [List.mem_singleton] at h
          subst h
          intro e heL
          rw [hhead_new, hsrc0]
          by_contra hcon
          push_neg at hcon
          have hbe : isBdr m.half_edges_ e := boundaryLoop_mem_Bd hwf hbdr0 heL
          have hecov : e ∈ acc.1 := by
            apply hcov e hbe
            exact ⟨e, self_mem_boundaryLoop hwf hbe, by omega⟩
          -- but e is on the new loop, which is disjoint from the visited set
          exact hno e heL hecov
      · -- launch vertices are below k+1
        intro L hL2
        rw [List.mem_append] at hL2
        rcases hL2 with h | h
        · exact Nat.lt_succ_of_lt (hheadlt L h)
        · rw [List.mem_singleton] at h
          subst h
          rw [hhead_new, hsrc0]
          omega
      · -- loops sorted by launch vertex
        rw [List.pairwise_append]
        refine ⟨hsorted, by simp, ?_⟩
        intro Lold hLold Lnew hLnew
        rw [List.mem_singleton] at hLnew
        subst hLnew
        rw [hhead_new, hsrc0]
        exact hheadlt Lold hLold
    · -- no new loop: either h0 is interior or already visited
      rw [if_neg hguard]
      refine ⟨hflat, hloops, hdisj, ?_, hmin,
        fun L hL2 => Nat.lt_succ_of_lt (hheadlt L hL2), hsorted⟩
      rintro e he ⟨e2, he2, hsrc⟩
      rcases Nat.lt_or_ge ((heAt m.half_edges_ e2).src).toNat k with h | h
      · exact hcov e he ⟨e2, he2, h⟩
      · have hbe2 : isBdr m.half_edges_ e2 := boundaryLoop_mem_Bd hwf he he2
        have he2h0 : e2 = h0 := huniq e2 hbe2 (by omega)
        subst he2h0
        -- the guard failed, and h0 is boundary, so it is already visited
        have hh0in : e2 ∈ acc.1 := by
          simp only [Bool.and_eq_true, Bool.not_eq_true'] at hguard
          push_neg at hguard
          have := hguard hbe2.2
          have hcontains : acc.1.contains e2 = true := by
            cases hcont : acc.1.contains e2 with
            | true => rfl
            | false => exact absurd hcont this
          exact List.elem_iff.mp hcontains
        -- walk the visited loop containing h0 to reach e
        rw [hflat, List.mem_flatten] at hh0in
        obtain ⟨Lold, hLold, hh0Lold⟩ := hh0in
        obtain ⟨bold, hbold, rfl⟩ := hloops Lold hLold
        have hlp1 : ∀ y, y ∈ boundaryLoop m.half_edges_ e2 ↔
            y ∈ boundaryLoop m.half_edges_ e := loop_eq_of_mem hwf he he2
        have hein : e ∈ boundaryLoop m.half_edges_ e2 :=
          (hlp1 e).mpr (self_mem_boundaryLoop hwf he)
        have hlp2 : ∀ y, y ∈ boundaryLoop m.half_edges_ e2 ↔
            y ∈ boundaryLoop m.half_edges_ bold := loop_eq_of_mem hwf hbold hh0Lold
        have : e ∈ boundaryLoop m.half_edges_ bold := (hlp2 e).mp hein
        rw [hflat, List.mem_flatten]
        exact ⟨boundaryLoop m.half_edges_ bold, hLold, this⟩

theorem gb_fold_inv (mesh : TriangleMesh) (m : HalfEdgeTriangleMesh)
    (hok : CreateFromTriangleMesh mesh = .ok m) :
    ∀ k, k ≤ m.vertices_.length →
      gbInv m k ((List.range k).foldl (gbStep m) ([], [])) := by
  intro k
  induction k with
  | zero =>
    intro _
    refine ⟨rfl, ?_, List.Pairwise.nil, ?_, ?_, ?_, List.Pairwise.nil⟩
    · intro L hL2
      simp at hL2
    · rintro e he ⟨e2, he2, hsrc⟩
      omega
    · intro L hL2
      simp at hL2
    · intro L hL2
      simp at hL2
  | succ k ih =>
    intro hk1
    rw [List.range_succ, List.foldl_append, List.foldl_cons, List.foldl_nil]
    exact gbStep_inv mesh m hok k (by omega) _ (ih (by omega))

/-- C6: for every successfully built store, the boundary loops visited by
`GetBoundaries` cover each distinct boundary loop exactly once: each loop
is duplicate-free, the loops are pairwise disjoint in their half-edge
sets, together they contain exactly the boundary half-edges, each loop
starts at its lowest source vertex, and the loops are emitted in strictly
increasing order of that lowest starting vertex. -/
theorem get_boundaries_exact_cover (mesh : TriangleMesh)
    (m : HalfEdgeTriangleMesh) (hok : CreateFromTriangleMesh mesh = .ok m) :
    (∀ L ∈ GetBoundaryLoops m, L.Nodup) ∧
    List.Pairwise List.Disjoint (GetBoundaryLoops m) ∧
    (∀ e, e ∈ (GetBoundaryLoops m).flatten ↔
      (validIdx m.half_edges_ e ∧ (heAt m.half_edges_ e).IsBoundary = true)) ∧
    (∀ L ∈ GetBoundaryLoops m, ∀ e ∈ L,
      ((heAt m.half_edges_ (L.getD 0 (-1))).src).toNat ≤
        ((heAt m.half_edges_ e).src).toNat) ∧
    List.Pairwise (fun L1 L2 =>
      ((heAt m.half_edges_ (L1.getD 0 (-1))).src).toNat <
      ((heAt m.half_edges_ (L2.getD 0 (-1))).src).toNat) (GetBoundaryLoops m) := by
  have hwf : WF m.half_edges_ := build_WF mesh m hok
  obtain ⟨hflat, hloops, hdisj, hcov, hmin, -, hsorted⟩ :=
    gb_fold_inv mesh m hok m.vertices_.length le_rfl
  refine ⟨?_, hdisj, ?_, hmin, hsorted⟩
  · intro L hL2
    obtain ⟨h0, hb0, rfl⟩ := hloops L hL2
    exact boundaryLoop_nodup hwf hb0
  · intro e
    constructor
    · intro he
      rw [List.mem_flatten] at he
      obtain ⟨L, hL2, heL⟩ := he
      obtain ⟨h0, hb0, rfl⟩ := hloops L hL2
      exact boundaryLoop_mem_Bd hwf hb0 heL
    · intro he
      have hee : e ∈ ((List.range m.vertices_.length).foldl (gbStep m) ([], [])).1 := by
        apply hcov e he
        exact ⟨e, self_mem_boundaryLoop hwf he,
          (built_src_bound mesh m hok e he.1).2⟩
      rw [hflat] at hee
      exact hee

theorem get_boundaries_exact_cover_witness :
    CreateFromTriangleMesh squareMesh = .ok squareStore ∧
    List.Pairwise List.Disjoint (GetBoundaryLoops squareStore) :=
  ⟨by rfl, (get_boundaries_exact_cover squareMesh squareStore (by rfl)).2.1⟩

end Open3D
